import Mathlib

/-!
Verification of the template-initialization script (.template/init.py).

Python strings are modelled as List Char (a Python 3 str is a sequence of
unicode scalar values, which Lean's Char also is); file bytes are modelled
as List Nat with each element < 256.  All definitions are translated
directly from the source; line numbers refer to .template/init.py.
-/

/- ===================== Definitions ===================== -/

/-- Helper turning a string literal into the List Char model. -/
def strL (s : String) : List Char := s.toList

/-- Fuel-driven worker for Python str.replace: scan left to right, at each
position replace the leftmost occurrence of the needle k by v and continue
after the inserted value (the inserted value is not re-scanned within this
pass).  One unit of fuel is spent per step; fuel = length of the subject
suffices for a nonempty needle. -/
def replaceAllAux (k v : List Char) : Nat → List Char → List Char
  | 0, s => s
  | _ + 1, [] => []
  | n + 1, c :: t =>
    if k.isPrefixOf (c :: t) then v ++ replaceAllAux k v n ((c :: t).drop k.length)
    else c :: replaceAllAux k v n t

/-- Python text.replace(key, value) for a nonempty needle, as used at
init.py line 128 and lines 146-147 / 160-161. -/
def replaceAll (k v s : List Char) : List Char := replaceAllAux k v s.length s

/-- The substitution loop of init.py lines 127-128 (and 146-147, 160-161):
a left-to-right fold of literal replacements over the mapping. -/
def applyReplacements (rs : List (List Char × List Char)) (s : List Char) : List Char :=
  rs.foldl (fun t kv => replaceAll kv.1 kv.2 t) s

/-- Placeholder token for the package name. -/
def keyPackageName : List Char := strL ("$\x7bpackage_name\x7d")

/-- Placeholder token for the import name. -/
def keyImportName : List Char := strL ("$\x7bimport_name\x7d")

/-- Placeholder token for the package title. -/
def keyPackageTitle : List Char := strL ("$\x7bpackage_title\x7d")

/-- Placeholder token for the author. -/
def keyAuthor : List Char := strL ("$\x7bauthor\x7d")

/-- Placeholder token for the email. -/
def keyEmail : List Char := strL ("$\x7bemail\x7d")

/-- Placeholder token for the description. -/
def keyDescription : List Char := strL ("$\x7bdescription\x7d")

/-- Placeholder token for the github username. -/
def keyGithubUsername : List Char := strL ("$\x7bgithub_username\x7d")

/-- Placeholder token for the year. -/
def keyYear : List Char := strL ("$\x7byear\x7d")

/-- Derived import name, init.py line 176: name.replace("-", "_"). -/
def importName (name : List Char) : List Char := replaceAll ['-'] ['_'] name

/-- Replacement dictionary of init.py lines 181-190, in insertion order.
The year is passed in as a string (main computes it from the clock). -/
def buildReplacements (name author email description github year : List Char) :
    List (List Char × List Char) :=
  [ (keyPackageName, name)
  , (keyImportName, importName name)
  , (keyPackageTitle, importName name)
  , (keyAuthor, author)
  , (keyEmail, email)
  , (keyDescription, description)
  , (keyGithubUsername, github)
  , (keyYear, year) ]

/-- Python s.split(sep) for a single-character separator: the resulting list
of parts (always nonempty). -/
def pySplitCh (sep : Char) : List Char → List (List Char)
  | [] => [[]]
  | c :: t =>
    match pySplitCh sep t with
    | [] => [[]]
    | g :: gs => if c = sep then [] :: g :: gs else (c :: g) :: gs

/-- Fallback derivation of the GitHub handle, init.py lines 96-103: an
explicitly supplied handle wins; otherwise the part of the email before the
first "@" when the email contains one, else the OS account name
(getpass.getuser()). -/
def resolveGithub (github : Option (List Char)) (email osUser : List Char) : List Char :=
  match github with
  | some g => g
  | none => if '@' ∈ email then (pySplitCh '@' email).headD [] else osUser

/-- Shape of every supported placeholder token: it starts with a dollar sign
and contains no further dollar sign. -/
def DollarKey (k : List Char) : Prop := ∃ rest, k = '$' :: rest ∧ '$' ∉ rest

/-- Invariant over a string: every occurrence of the dollar character begins
a complete occurrence of one of the keys K. -/
def dollarGuarded (K : List (List Char)) : List Char → Bool
  | [] => true
  | c :: t =>
    (decide (c ≠ '$') || K.any (fun k => k.isPrefixOf (c :: t))) && dollarGuarded K t

/-- Constraint on the continuation byte following the first byte of a
three-byte UTF-8 sequence (strict decoder, rejecting overlong encodings and
surrogates, as CPython does). -/
def cont3OK (b b1 : Nat) : Prop :=
  if b = 0xE0 then 0xA0 ≤ b1 ∧ b1 ≤ 0xBF
  else if b = 0xED then 0x80 ≤ b1 ∧ b1 ≤ 0x9F
  else 0x80 ≤ b1 ∧ b1 ≤ 0xBF

instance (b b1 : Nat) : Decidable (cont3OK b b1) := by
  unfold cont3OK
  infer_instance

/-- Constraint on the continuation byte following the first byte of a
four-byte UTF-8 sequence. -/
def cont4OK (b b1 : Nat) : Prop :=
  if b = 0xF0 then 0x90 ≤ b1 ∧ b1 ≤ 0xBF
  else if b = 0xF4 then 0x80 ≤ b1 ∧ b1 ≤ 0x8F
  else 0x80 ≤ b1 ∧ b1 ≤ 0xBF

instance (b b1 : Nat) : Decidable (cont4OK b b1) := by
  unfold cont4OK
  infer_instance

mutual
/-- Strict UTF-8 decoding of a byte sequence, as performed by Python
bytes.decode("utf-8") inside Path.read_text (init.py line 126); none models
a UnicodeDecodeError.  The helpers consume the continuation bytes of a two-,
three- or four-byte sequence. -/
def decodeUtf8 : List Nat → Option (List Char)
  | [] => some []
  | b :: bs =>
    if b < 0x80 then (decodeUtf8 bs).map (fun r => Char.ofNat b :: r)
    else if 0xC2 ≤ b ∧ b ≤ 0xDF then decodeTail2 b bs
    else if 0xE0 ≤ b ∧ b ≤ 0xEF then decodeTail3 b bs
    else if 0xF0 ≤ b ∧ b ≤ 0xF4 then decodeTail4 b bs
    else none

def decodeTail2 (b : Nat) : List Nat → Option (List Char)
  | b1 :: bs2 =>
    if 0x80 ≤ b1 ∧ b1 ≤ 0xBF then
      (decodeUtf8 bs2).map (fun r => Char.ofNat ((b - 0xC0) * 64 + (b1 - 0x80)) :: r)
    else none
  | [] => none

def decodeTail3 (b : Nat) : List Nat → Option (List Char)
  | b1 :: b2 :: bs2 =>
    if cont3OK b b1 ∧ 0x80 ≤ b2 ∧ b2 ≤ 0xBF then
      (decodeUtf8 bs2).map
        (fun r => Char.ofNat ((b - 0xE0) * 4096 + (b1 - 0x80) * 64 + (b2 - 0x80)) :: r)
    else none
  | _ => none

def decodeTail4 (b : Nat) : List Nat → Option (List Char)
  | b1 :: b2 :: b3 :: bs2 =>
    if cont4OK b b1 ∧ (0x80 ≤ b2 ∧ b2 ≤ 0xBF) ∧ (0x80 ≤ b3 ∧ b3 ≤ 0xBF) then
      (decodeUtf8 bs2).map
        (fun r => Char.ofNat
          ((b - 0xF0) * 262144 + (b1 - 0x80) * 4096 + (b2 - 0x80) * 64 + (b3 - 0x80)) :: r)
    else none
  | _ => none
end

/-- UTF-8 encoding of one scalar value. -/
def encodeChar (c : Char) : List Nat :=
  if c.toNat < 0x80 then [c.toNat]
  else if c.toNat < 0x800 then [0xC0 + c.toNat / 64, 0x80 + c.toNat % 64]
  else if c.toNat < 0x10000 then
    [0xE0 + c.toNat / 4096, 0x80 + (c.toNat / 64) % 64, 0x80 + c.toNat % 64]
  else
    [0xF0 + c.toNat / 262144, 0x80 + (c.toNat / 4096) % 64,
     0x80 + (c.toNat / 64) % 64, 0x80 + c.toNat % 64]

/-- UTF-8 encoding of a string, as performed by Path.write_text
(init.py line 129). -/
def encodeUtf8 (s : List Char) : List Nat := (s.map encodeChar).flatten

/-- Universal-newlines translation applied by Python's text mode on read:
a carriage-return/line-feed pair and a lone carriage return both become a
single line feed. -/
def translateNL : List Char → List Char
  | [] => []
  | [c] => if c = '\r' then ['\n'] else [c]
  | c1 :: c2 :: t =>
    if c1 = '\r' then
      if c2 = '\n' then '\n' :: translateNL t
      else '\n' :: translateNL (c2 :: t)
    else c1 :: translateNL (c2 :: t)

/-- Outcome of one replace_in_file call, as printed at lines 130 and 132. -/
inductive FileNotice where
  | updated
  | skippedBinary
deriving DecidableEq

/-- Model of replace_in_file (init.py lines 123-134): read the file as
UTF-8 text (universal newlines), apply every substitution of the mapping in
order, and write the result back; a file that does not decode is left
untouched and reported as skipped.  The write path uses the POSIX line
separator, under which writing translates nothing. -/
def replaceInFile (rs : List (List Char × List Char)) (b : List Nat) :
    List Nat × FileNotice :=
  match decodeUtf8 b with
  | none => (b, FileNotice.skippedBinary)
  | some text => (encodeUtf8 (applyReplacements rs (translateNL text)), FileNotice.updated)

/-- Rooted directory tree: a directory has a name, subdirectories and
files; a file is a name paired with its byte content.  The root node stands
for the working directory (its own name is outside the tool's reach, as the
walk of init.py never renames the directory it starts from). -/
inductive FsTree where
  | node (name : List Char) (subs : List FsTree) (files : List (List Char × List Nat))

def FsTree.name : FsTree → List Char
  | .node n _ _ => n

def FsTree.subs : FsTree → List FsTree
  | .node _ s _ => s

def FsTree.files : FsTree → List (List Char × List Nat)
  | .node _ _ f => f

def FsTree.withName (n : List Char) : FsTree → FsTree
  | .node _ s f => .node n s f

/-- Name of the version-control metadata directory excluded at line 201. -/
def gitName : List Char := strL (".git")

/-- Name of the workflow metadata directory excluded at line 202. -/
def githubName : List Char := strL (".github")

/-- File filter of the content-rewrite stage (main, lines 199-204): a
regular file is processed when no component of its path is .git or .github
and the file is not the running script itself.  The parts list contains
every path component including the file name, mirroring Path.parts of the
resolved path relative to the working directory. -/
def selectFile (parts script : List (List Char)) : Bool :=
  decide (gitName ∉ parts ∧ githubName ∉ parts ∧ parts ≠ script)

mutual
/-- Step 1 of main (lines 197-205): walk every file below the working
directory and rewrite the selected ones with replace_in_file.  The p
argument is the path of the directory being visited, [] for the root. -/
def contentPassAt (rs : List (List Char × List Char)) (script : List (List Char))
    (p : List (List Char)) : FsTree → FsTree
  | .node nm subs files =>
    .node nm (contentPassSubs rs script p subs)
      (files.map (fun e =>
        if selectFile (p ++ [e.1]) script then (e.1, (replaceInFile rs e.2).1) else e))

def contentPassSubs (rs : List (List Char × List Char)) (script : List (List Char))
    (p : List (List Char)) : List FsTree → List FsTree
  | [] => []
  | d :: ds => contentPassAt rs script (p ++ [d.name]) d :: contentPassSubs rs script p ds
end

/-- Lookup of a file entry by name (first match, as the file system has at
most one entry per name). -/
def lookupFile : List (List Char × List Nat) → List Char → Option (List Nat)
  | [], _ => none
  | e :: es, x => if e.1 = x then some e.2 else lookupFile es x

/-- Lookup of a subdirectory by name. -/
def findSub : List FsTree → List Char → Option FsTree
  | [], _ => none
  | d :: ds, x => if d.name = x then some d else findSub ds x

/-- Content of the file at the given path below a tree, when it exists. -/
def fileAt : List (List Char) → FsTree → Option (List Nat)
  | [], _ => none
  | [x], t => lookupFile t.files x
  | x :: y :: rest, t =>
    match findSub t.subs x with
    | some d => fileAt (y :: rest) d
    | none => none

/-- Test of line 144 / line 158: a name is considered for renaming exactly
when it contains the literal marker of a placeholder opening. -/
def hasMarker (n : List Char) : Bool := decide ((strL ("$\x7b")) <:+: n)

/-- New name of a renamed entry: the name with every substitution of the
mapping applied (lines 145-147 and 159-161); an entry without the marker is
not touched, and an entry whose substituted name is unchanged is not moved
(lines 150 and 164). -/
def effNew (rs : List (List Char × List Char)) (n : List Char) : List Char :=
  if hasMarker n then applyReplacements rs n else n

/-- One move of the rename stage: a rename of the entry src of the
directory at path parent (relative to the walk root) to the name dst in the
same directory; isDir tells which branch of the source loop emitted it. -/
structure MoveOp where
  parent : List (List Char)
  isDir : Bool
  src : List Char
  dst : List Char

/-- Prefix an operation's parent path with one more leading component. -/
def shiftOp (x : List Char) (op : MoveOp) : MoveOp :=
  ⟨x :: op.parent, op.isDir, op.src, op.dst⟩

/-- Changed name of an entry, when the source would move it: the name must
contain the marker (line 144 / 158) and the substituted name must differ
(line 150 / 164). -/
def changedName (rs : List (List Char × List Char)) (n : List Char) : Option (List Char) :=
  if hasMarker n ∧ applyReplacements rs n ≠ n then some (applyReplacements rs n) else none

/-- Moves a directory's file loop emits (lines 142-153), in listing order. -/
def fileOps (rs : List (List Char × List Char)) (p : List (List Char))
    (files : List (List Char × List Nat)) : List MoveOp :=
  files.filterMap (fun e => (changedName rs e.1).map (fun m => ⟨p, false, e.1, m⟩))

/-- Moves a directory's subdirectory loop emits (lines 156-168). -/
def dirOps (rs : List (List Char × List Char)) (p : List (List Char))
    (subs : List FsTree) : List MoveOp :=
  subs.filterMap (fun d => (changedName rs d.name).map (fun m => ⟨p, true, d.name, m⟩))

mutual
/-- Sequence of moves performed by rename_files_and_dirs (lines 137-168)
on a directory tree, in execution order: os.walk with topdown False yields
every subdirectory's subtree before the directory itself, and at each yield
the files of the directory are moved before its subdirectories.  The
listings are those of the original tree: every directory is scanned before
any rename inside it happens, and renames never leave their directory. -/
def walkOps (rs : List (List Char × List Char)) : FsTree → List MoveOp
  | .node _ subs files =>
    walkOpsSubs rs subs ++ fileOps rs [] files ++ dirOps rs [] subs

def walkOpsSubs (rs : List (List Char × List Char)) : List FsTree → List MoveOp
  | [] => []
  | d :: ds => (walkOps rs d).map (shiftOp d.name) ++ walkOpsSubs rs ds
end

/-- Entry renaming inside one directory for a file move, following
shutil.move: a missing source is an error; a destination that is an
existing directory receives the file, keeping its old name, unless that
directory already has an entry of that name; an existing destination file
is silently replaced; otherwise a plain rename. -/
def renameFileInNode (nd : FsTree) (src dst : List Char) : Option FsTree :=
  match lookupFile nd.files src with
  | none => none
  | some data =>
    match findSub nd.subs dst with
    | some d =>
      if (lookupFile d.files src).isSome ∨ (findSub d.subs src).isSome then none
      else
        some (FsTree.node nd.name
          (nd.subs.map (fun e =>
            if e.name = dst then FsTree.node e.name e.subs (e.files ++ [(src, data)]) else e))
          (nd.files.filter (fun e => ¬ e.1 = src)))
    | none =>
      some (FsTree.node nd.name nd.subs
        ((nd.files.filter (fun e => ¬ e.1 = dst)).map
          (fun e => if e.1 = src then (dst, e.2) else e)))

/-- Entry renaming inside one directory for a directory move (lines
163-168): when the destination path exists, in any form, the move is
silently skipped; otherwise a missing source is an error and a present
source directory is renamed in place. -/
def renameDirInNode (nd : FsTree) (src dst : List Char) : Option FsTree :=
  if (lookupFile nd.files dst).isSome ∨ (findSub nd.subs dst).isSome then some nd
  else
    match findSub nd.subs src with
    | none => none
    | some _ =>
      some (FsTree.node nd.name
        (nd.subs.map (fun d => if d.name = src then d.withName dst else d))
        nd.files)

/-- Replace the subdirectory with the given name. -/
def replaceSubByName (subs : List FsTree) (x : List Char) (d' : FsTree) : List FsTree :=
  subs.map (fun e => if e.name = x then d' else e)

/-- Apply a partial transformation to the directory at the given path; the
navigation fails when a component no longer exists, which models a rename
aimed at a path already invalidated. -/
def modifyAt (f : FsTree → Option FsTree) : List (List Char) → FsTree → Option FsTree
  | [], t => f t
  | x :: rest, t =>
    match findSub t.subs x with
    | none => none
    | some d =>
      (modifyAt f rest d).map (fun d' => FsTree.node t.name (replaceSubByName t.subs x d') t.files)

/-- Execute one move against the tree. -/
def execOp (t : FsTree) (op : MoveOp) : Option FsTree :=
  modifyAt
    (fun nd => if op.isDir then renameDirInNode nd op.src op.dst
               else renameFileInNode nd op.src op.dst)
    op.parent t

/-- Execute a sequence of moves left to right, failing when any single move
fails. -/
def execOps (ops : List MoveOp) (t : FsTree) : Option FsTree :=
  ops.foldlM (fun acc op => execOp acc op) t

mutual
/-- Intended final tree of the rename stage: every file name and every
subdirectory name, at every depth, with its substituted name; the walk
root's own name is untouched. -/
def innerRename (rs : List (List Char × List Char)) : FsTree → FsTree
  | .node nm subs files =>
    .node nm (innerRenameSubs rs subs) (files.map (fun e => (effNew rs e.1, e.2)))

def innerRenameSubs (rs : List (List Char × List Char)) : List FsTree → List FsTree
  | [] => []
  | d :: ds => (innerRename rs d).withName (effNew rs d.name) :: innerRenameSubs rs ds
end

mutual
/-- Freedom from rename collisions, checked in every directory: the
original entry names together with the changed substituted names form a
duplicate-free list.  Under this condition no move of the rename stage can
hit an existing destination or overwrite a sibling. -/
def renameWF (rs : List (List Char × List Char)) : FsTree → Bool
  | .node _ subs files =>
    ((subs.map FsTree.name ++ files.map Prod.fst)
      ++ (subs.map FsTree.name ++ files.map Prod.fst).filterMap (changedName rs)).Nodup
    && renameWFSubs rs subs

def renameWFSubs (rs : List (List Char × List Char)) : List FsTree → Bool
  | [] => true
  | d :: ds => renameWF rs d && renameWFSubs rs ds
end

/-- Renamed file entry: the entry with its substituted name. -/
def renF (rs : List (List Char × List Char)) (e : List Char × List Nat) :
    List Char × List Nat := (effNew rs e.1, e.2)

/-- Renamed directory: the directory with its substituted name, contents
untouched. -/
def renD (rs : List (List Char × List Char)) (d : FsTree) : FsTree :=
  d.withName (effNew rs d.name)

mutual
/-- Every file and directory name appearing anywhere below a tree node (the
node's own name excluded, as the walk root is never renamed). -/
def namesBelow : FsTree → List (List Char)
  | .node _ subs files => files.map Prod.fst ++ subs.map FsTree.name ++ namesBelowSubs subs

def namesBelowSubs : List FsTree → List (List Char)
  | [] => []
  | d :: ds => namesBelow d ++ namesBelowSubs ds
end

mutual
/-- Guard on text contents: every file the content pass selects and can
decode has, after newline translation, every dollar opening a complete
token of K. -/
def contentsGuarded (K : List (List Char)) (script : List (List Char))
    (q : List (List Char)) : FsTree → Bool
  | .node _ subs files =>
    files.all (fun e =>
      if selectFile (q ++ [e.1]) script then
        match decodeUtf8 e.2 with
        | some txt => dollarGuarded K (translateNL txt)
        | none => true
      else true)
    && contentsGuardedSubs K script q subs

def contentsGuardedSubs (K : List (List Char)) (script : List (List Char))
    (q : List (List Char)) : List FsTree → Bool
  | [] => true
  | d :: ds =>
    contentsGuarded K script (q ++ [d.name]) d && contentsGuardedSubs K script q ds
end

/- ===================== Theorems ===================== -/

theorem replaceAllAux_nil (k v : List Char) (n : Nat) : replaceAllAux k v n [] = [] := by
  cases n <;> rfl

theorem isPrefixOf_iff_pre {k s : List Char} : k.isPrefixOf s = true ↔ k <+: s := by
  exact List.isPrefixOf_iff_prefix

/-- If the needle does not occur in the subject, a replace pass is the
identity, whatever the fuel. -/
theorem replaceAllAux_of_not_infix {k : List Char} (v : List Char) :
    ∀ (n : Nat) (s : List Char), ¬ k <:+: s → replaceAllAux k v n s = s := by
  intro n
  induction n with
  | zero => intro s _; rfl
  | succ n ih =>
    intro s hs
    match s with
    | [] => rfl
    | c :: t =>
      have hpre : ¬ k.isPrefixOf (c :: t) = true := by
        intro h
        exact hs (List.IsPrefix.isInfix (isPrefixOf_iff_pre.mp h))
      simp only [replaceAllAux, hpre]
      simp only [Bool.false_eq_true, if_false]
      have ht : ¬ k <:+: t := fun h => hs (h.trans (List.suffix_cons c t).isInfix)
      rw [ih t ht]

/-- replace_in_file and the renaming loop leave a string without the needle
unchanged. -/
theorem replaceAll_of_not_infix {k : List Char} (v : List Char) {s : List Char}
    (h : ¬ k <:+: s) : replaceAll k v s = s :=
  replaceAllAux_of_not_infix v s.length s h

/-- Every character of the result of a replace pass comes from the
replacement value or from the subject. -/
theorem mem_of_mem_replaceAllAux {k v : List Char} {a : Char} :
    ∀ (n : Nat) (s : List Char), a ∈ replaceAllAux k v n s → a ∈ v ∨ a ∈ s := by
  intro n
  induction n with
  | zero => intro s h; exact Or.inr h
  | succ n ih =>
    intro s h
    match s with
    | [] => simp [replaceAllAux] at h
    | c :: t =>
      by_cases hp : k.isPrefixOf (c :: t) = true
      · simp only [replaceAllAux, hp, if_true] at h
        rcases List.mem_append.mp h with h1 | h1
        · exact Or.inl h1
        · rcases ih _ h1 with h2 | h2
          · exact Or.inl h2
          · exact Or.inr (List.drop_subset _ _ h2)
      · simp only [replaceAllAux, hp] at h
        simp only [Bool.false_eq_true, if_false, List.mem_cons] at h
        rcases h with h1 | h1
        · exact Or.inr (by simp [h1])
        · rcases ih _ h1 with h2 | h2
          · exact Or.inl h2
          · exact Or.inr (List.mem_cons_of_mem c h2)

theorem mem_of_mem_replaceAll {k v s : List Char} {a : Char}
    (h : a ∈ replaceAll k v s) : a ∈ v ∨ a ∈ s :=
  mem_of_mem_replaceAllAux s.length s h

/-- Characters of the output of the whole substitution fold come from the
subject or from one of the replacement values. -/
theorem mem_of_mem_applyReplacements {a : Char} :
    ∀ (rs : List (List Char × List Char)) (s : List Char),
      a ∈ applyReplacements rs s → a ∈ s ∨ ∃ kv ∈ rs, a ∈ kv.2 := by
  intro rs
  induction rs with
  | nil => intro s h; exact Or.inl h
  | cons kv rest ih =>
    intro s h
    have h' : a ∈ applyReplacements rest (replaceAll kv.1 kv.2 s) := h
    rcases ih _ h' with h1 | ⟨kv', hkv', ha⟩
    · rcases mem_of_mem_replaceAll h1 with h2 | h2
      · exact Or.inr ⟨kv, List.mem_cons_self kv rest, h2⟩
      · exact Or.inl h2
    · exact Or.inr ⟨kv', List.mem_cons_of_mem kv hkv', ha⟩

/-- Unfolding of the fold: the first mapping entry is applied first and its
output is then handed to the remaining entries. -/
theorem applyReplacements_cons (kv : List Char × List Char)
    (rs : List (List Char × List Char)) (s : List Char) :
    applyReplacements (kv :: rs) s = applyReplacements rs (replaceAll kv.1 kv.2 s) := rfl

/-- Single-character replacement (used for name.replace("-", "_") at
init.py line 176) is a character map. -/
theorem replaceAllAux_singleton (a b : Char) :
    ∀ (n : Nat) (s : List Char), s.length ≤ n →
      replaceAllAux [a] [b] n s = s.map (fun c => if c = a then b else c) := by
  intro n
  induction n with
  | zero =>
    intro s hs
    have : s = [] := List.length_eq_zero.mp (Nat.le_zero.mp hs)
    subst this; rfl
  | succ n ih =>
    intro s hs
    match s with
    | [] => rfl
    | c :: t =>
      have hlt : t.length ≤ n := by simpa using hs
      by_cases hc : c = a
      · subst hc
        have hp : List.isPrefixOf [c] (c :: t) = true := by
          simp [List.isPrefixOf]
        simp [replaceAllAux, hp, ih t hlt, List.singleton_append]
      · have hp : List.isPrefixOf [a] (c :: t) = false := by
          simp [List.isPrefixOf]
          intro h; exact absurd h.symm hc
        simp [replaceAllAux, hp, ih t hlt, hc]

/-- Python name.replace("-", "_") replaces every hyphen by an underscore. -/
theorem importName_eq_map (name : List Char) :
    importName name = name.map (fun c => if c = '-' then '_' else c) :=
  replaceAllAux_singleton '-' '_' name.length name (Nat.le_refl _)

/-- The first field of a Python single-character split is the prefix of the
string before the first separator. -/
theorem pySplitCh_headD (sep : Char) :
    ∀ s : List Char, (pySplitCh sep s).headD [] = s.takeWhile (fun c => ¬ (c = sep)) := by
  intro s
  induction s with
  | nil => rfl
  | cons c t ih =>
    match hrec : pySplitCh sep t with
    | [] =>
      exfalso
      induction t with
      | nil => simp [pySplitCh] at hrec
      | cons d u _ =>
        simp only [pySplitCh] at hrec
        match h2 : pySplitCh sep u with
        | [] => rw [h2] at hrec; simp at hrec
        | g :: gs =>
          rw [h2] at hrec
          by_cases hd : d = sep <;> simp [hd] at hrec
    | g :: gs =>
      by_cases hc : c = sep
      · subst hc
        simp only [pySplitCh, hrec, if_pos rfl, List.headD, List.takeWhile]
        simp
      · simp only [pySplitCh, hrec, if_neg hc, List.headD, List.takeWhile]
        rw [hrec] at ih
        simp only [List.headD] at ih
        simp [hc, ih]

theorem noDollar_of_dollarGuarded_nil :
    ∀ s : List Char, dollarGuarded [] s = true → '$' ∉ s := by
  intro s
  induction s with
  | nil => intro _ h; simp at h
  | cons c t ih =>
    intro h hm
    simp only [dollarGuarded, List.any_nil, Bool.or_false, Bool.and_eq_true,
      decide_eq_true_eq] at h
    rcases List.mem_cons.mp hm with h1 | h1
    · exact h.1 h1.symm
    · exact ih h.2 h1

theorem dollarGuarded_tail {K : List (List Char)} {c : Char} {t : List Char}
    (h : dollarGuarded K (c :: t) = true) : dollarGuarded K t = true := by
  simp only [dollarGuarded, Bool.and_eq_true] at h
  exact h.2

theorem dollarGuarded_drop {K : List (List Char)} :
    ∀ (m : Nat) (s : List Char), dollarGuarded K s = true →
      dollarGuarded K (s.drop m) = true := by
  intro m
  induction m with
  | zero => intro s h; exact h
  | succ m ih =>
    intro s h
    match s with
    | [] => exact h
    | c :: t => exact ih t (dollarGuarded_tail h)

theorem dollarGuarded_append_left {K : List (List Char)} {v u : List Char}
    (hv : '$' ∉ v) (hu : dollarGuarded K u = true) :
    dollarGuarded K (v ++ u) = true := by
  induction v with
  | nil => exact hu
  | cons a v' ih =>
    have ha : a ≠ '$' := fun h => hv (by simp [h])
    have hv' : '$' ∉ v' := fun h => hv (List.mem_cons_of_mem a h)
    simp only [List.cons_append, dollarGuarded, Bool.and_eq_true, Bool.or_eq_true,
      decide_eq_true_eq]
    exact ⟨Or.inl ha, ih hv'⟩

/-- A replace pass with a dollar-headed needle leaves any dollar-free block
at the front of the subject in place. -/
theorem pre_surviving_replaceAllAux {k v : List Char} {krest : List Char}
    (hk : k = '$' :: krest) :
    ∀ (pre : List Char), '$' ∉ pre → ∀ (n : Nat) (u : List Char),
      pre <+: replaceAllAux k v n (pre ++ u) := by
  intro pre
  induction pre with
  | nil => intro _ n u; exact List.nil_prefix
  | cons p pre' ih =>
    intro hp n u
    have hp1 : p ≠ '$' := fun h => hp (by simp [h])
    have hp2 : '$' ∉ pre' := fun h => hp (List.mem_cons_of_mem p h)
    match n with
    | 0 => exact List.prefix_append _ _
    | m + 1 =>
      have hnp : k.isPrefixOf (p :: (pre' ++ u)) = false := by
        subst hk
        simp [List.isPrefixOf]
        intro h
        exact absurd h.symm hp1
      simp only [List.cons_append, replaceAllAux, List.append_eq, hnp,
        Bool.false_eq_true, if_false]
      exact List.prefix_cons_inj p |>.mpr (ih hp2 m u)

/-- Step lemma: one replace pass with the key k against a string in which
every dollar begins an occurrence of k or of one of the remaining keys R
yields a string in which every dollar begins an occurrence of one of R,
provided the replacement value is dollar-free. -/
theorem dollarGuarded_step {k v : List Char} {R : List (List Char)}
    (hk : DollarKey k) (hR : ∀ k' ∈ R, DollarKey k') (hv : '$' ∉ v) :
    ∀ (n : Nat) (s : List Char), s.length ≤ n → dollarGuarded (k :: R) s = true →
      dollarGuarded R (replaceAllAux k v n s) = true := by
  obtain ⟨krest, hkEq, -⟩ := hk
  intro n
  induction n with
  | zero =>
    intro s hlen hs
    have : s = [] := List.length_eq_zero.mp (Nat.le_zero.mp hlen)
    subst this; rfl
  | succ n ih =>
    intro s hlen hs
    match s with
    | [] => rfl
    | c :: t =>
      have hlt : t.length ≤ n := by simpa using hlen
      have hstail : dollarGuarded (k :: R) t = true := dollarGuarded_tail hs
      by_cases hpre : k.isPrefixOf (c :: t) = true
      · simp only [replaceAllAux, hpre, if_true]
        have hdroplen : ((c :: t).drop k.length).length ≤ n := by
          have hk1 : 1 ≤ k.length := by subst hkEq; simp
          have : ((c :: t).drop k.length).length = (c :: t).length - k.length := by
            simp
          omega
        have hdropguard : dollarGuarded (k :: R) ((c :: t).drop k.length) = true :=
          dollarGuarded_drop _ _ hs
        exact dollarGuarded_append_left hv (ih _ hdroplen hdropguard)
      · simp only [replaceAllAux, hpre, Bool.false_eq_true, if_false]
        have hX : dollarGuarded R (replaceAllAux k v n t) = true := ih t hlt hstail
        by_cases hc : c = '$'
        · subst hc
          simp only [dollarGuarded, Bool.and_eq_true] at hs
          rcases hs with ⟨hhead, -⟩
          have : ∃ k' ∈ k :: R, k'.isPrefixOf ('$' :: t) = true := by
            rcases Bool.or_eq_true _ _ |>.mp hhead with h1 | h1
            · simp at h1
            · simpa using List.any_eq_true.mp h1
          obtain ⟨k', hk'mem, hk'pre⟩ := this
          have hk'R : k' ∈ R := by
            rcases List.mem_cons.mp hk'mem with h1 | h1
            · subst h1; exact absurd hk'pre hpre
            · exact h1
          obtain ⟨rest', hrEq, hrND⟩ := hR k' hk'R
          have hrestpre : rest' <+: t := by
            have := isPrefixOf_iff_pre.mp hk'pre
            rw [hrEq] at this
            exact (List.cons_prefix_cons.mp this).2
          obtain ⟨u, hu⟩ := hrestpre
          have hsurv : rest' <+: replaceAllAux k v n t := by
            rw [← hu]
            exact pre_surviving_replaceAllAux hkEq rest' hrND n u
          simp only [dollarGuarded, Bool.and_eq_true, Bool.or_eq_true]
          refine ⟨Or.inr ?_, hX⟩
          refine List.any_eq_true.mpr ⟨k', hk'R, ?_⟩
          refine isPrefixOf_iff_pre.mpr ?_
          rw [hrEq]
          exact List.cons_prefix_cons.mpr ⟨rfl, hsurv⟩
        · simp only [dollarGuarded, Bool.and_eq_true, Bool.or_eq_true,
            decide_eq_true_eq]
          exact ⟨Or.inl hc, hX⟩

/-- Main elimination theorem: a full left-to-right substitution pass over a
mapping whose keys all have the dollar-token shape and whose values are all
dollar-free turns any string in which every dollar begins a complete key
occurrence into a dollar-free string. -/
theorem noDollar_applyReplacements :
    ∀ (rs : List (List Char × List Char)),
      (∀ kv ∈ rs, DollarKey kv.1 ∧ '$' ∉ kv.2) →
      ∀ s : List Char, dollarGuarded (rs.map (fun kv => kv.1)) s = true →
        '$' ∉ applyReplacements rs s := by
  intro rs
  induction rs with
  | nil => intro _ s hs; exact noDollar_of_dollarGuarded_nil s hs
  | cons kv rest ih =>
    intro hgood s hs
    rw [applyReplacements_cons]
    have hkv := hgood kv (List.mem_cons_self kv rest)
    have hrest : ∀ kv' ∈ rest, DollarKey kv'.1 ∧ '$' ∉ kv'.2 :=
      fun kv' h => hgood kv' (List.mem_cons_of_mem kv h)
    refine ih hrest _ ?_
    exact dollarGuarded_step hkv.1 (fun k' hk' => by
        obtain ⟨kv', hkv', hEq⟩ := List.mem_map.mp hk'
        subst hEq
        exact (hrest kv' hkv').1)
      hkv.2 s.length s (Nat.le_refl _) hs

/-- A dollar-shaped key cannot occur in a dollar-free string. -/
theorem not_infix_of_noDollar {k s : List Char} (hk : DollarKey k) (hs : '$' ∉ s) :
    ¬ k <:+: s := by
  intro hinf
  obtain ⟨rest, hEq, -⟩ := hk
  exact hs (hinf.subset (by rw [hEq]; exact List.mem_cons_self _ _))

/-- If no key of the mapping occurs in a string, the whole substitution fold
leaves the string unchanged. -/
theorem applyReplacements_of_no_key :
    ∀ (rs : List (List Char × List Char)) (s : List Char),
      (∀ kv ∈ rs, ¬ kv.1 <:+: s) → applyReplacements rs s = s := by
  intro rs
  induction rs with
  | nil => intro s _; rfl
  | cons kv rest ih =>
    intro s h
    rw [applyReplacements_cons, replaceAll_of_not_infix _ (h kv (List.mem_cons_self _ _))]
    exact ih s (fun kv' hm => h kv' (List.mem_cons_of_mem kv hm))

/-- Each of the eight tokens starts with a dollar and has no further dollar. -/
theorem dollarKey_keyPackageName : DollarKey keyPackageName :=
  ⟨(strL ("\x7bpackage_name\x7d")), by decide, by decide⟩

theorem dollarKey_keyImportName : DollarKey keyImportName :=
  ⟨(strL ("\x7bimport_name\x7d")), by decide, by decide⟩

theorem dollarKey_keyPackageTitle : DollarKey keyPackageTitle :=
  ⟨(strL ("\x7bpackage_title\x7d")), by decide, by decide⟩

theorem dollarKey_keyAuthor : DollarKey keyAuthor :=
  ⟨(strL ("\x7bauthor\x7d")), by decide, by decide⟩

theorem dollarKey_keyEmail : DollarKey keyEmail :=
  ⟨(strL ("\x7bemail\x7d")), by decide, by decide⟩

theorem dollarKey_keyDescription : DollarKey keyDescription :=
  ⟨(strL ("\x7bdescription\x7d")), by decide, by decide⟩

theorem dollarKey_keyGithubUsername : DollarKey keyGithubUsername :=
  ⟨(strL ("\x7bgithub_username\x7d")), by decide, by decide⟩

theorem dollarKey_keyYear : DollarKey keyYear :=
  ⟨(strL ("\x7byear\x7d")), by decide, by decide⟩

/-- Every key of the replacement dictionary built by main has the
dollar-token shape. -/
theorem dollarKey_buildReplacements (name author email description github year : List Char) :
    ∀ kv ∈ buildReplacements name author email description github year, DollarKey kv.1 := by
  intro kv hm
  simp only [buildReplacements, List.mem_cons, List.not_mem_nil, or_false] at hm
  rcases hm with h | h | h | h | h | h | h | h <;> subst h
  · exact dollarKey_keyPackageName
  · exact dollarKey_keyImportName
  · exact dollarKey_keyPackageTitle
  · exact dollarKey_keyAuthor
  · exact dollarKey_keyEmail
  · exact dollarKey_keyDescription
  · exact dollarKey_keyGithubUsername
  · exact dollarKey_keyYear

/-- Hyphen-to-underscore derivation never introduces a dollar sign. -/
theorem noDollar_importName {name : List Char} (h : '$' ∉ name) : '$' ∉ importName name := by
  rw [importName_eq_map]
  intro hm
  obtain ⟨x, hx, hfx⟩ := List.mem_map.mp hm
  by_cases hd : x = '-'
  · simp [hd] at hfx
  · rw [if_neg hd] at hfx
    subst hfx
    exact h hx

/-- All values of the replacement dictionary are dollar-free when the five
argument strings are. -/
theorem noDollar_buildReplacements_values {name author email description github year : List Char}
    (h1 : '$' ∉ name) (h2 : '$' ∉ author) (h3 : '$' ∉ email) (h4 : '$' ∉ description)
    (h5 : '$' ∉ github) (h6 : '$' ∉ year) :
    ∀ kv ∈ buildReplacements name author email description github year, '$' ∉ kv.2 := by
  intro kv hm
  simp only [buildReplacements, List.mem_cons, List.not_mem_nil, or_false] at hm
  rcases hm with h | h | h | h | h | h | h | h <;> subst h
  · exact h1
  · exact noDollar_importName h1
  · exact noDollar_importName h1
  · exact h2
  · exact h3
  · exact h4
  · exact h5
  · exact h6

theorem char_toNat_valid (c : Char) :
    c.toNat < 0xd800 ∨ (0xdfff < c.toNat ∧ c.toNat < 0x110000) := by
  have h := c.valid
  unfold UInt32.isValidChar at h
  unfold Nat.isValidChar at h
  exact h

/-- Decoding picks an encoded character back off the front of the byte
stream. -/
theorem decodeUtf8_encodeChar (c : Char) (rest : List Nat) :
    decodeUtf8 (encodeChar c ++ rest) = (decodeUtf8 rest).map (fun r => c :: r) := by
  have hval := char_toNat_valid c
  have hofn : Char.ofNat c.toNat = c := Char.ofNat_toNat c
  by_cases h1 : c.toNat < 0x80
  · have he : encodeChar c = [c.toNat] := by
      unfold encodeChar
      rw [if_pos h1]
    rw [he, List.singleton_append]
    rw [decodeUtf8, if_pos h1, hofn]
  · by_cases h2 : c.toNat < 0x800
    · have he : encodeChar c = [0xC0 + c.toNat / 64, 0x80 + c.toNat % 64] := by
        unfold encodeChar
        rw [if_neg h1, if_pos h2]
      rw [he, List.cons_append, List.singleton_append]
      rw [decodeUtf8, if_neg (by omega),
        if_pos (show 0xC2 ≤ 0xC0 + c.toNat / 64 ∧ 0xC0 + c.toNat / 64 ≤ 0xDF by omega),
        decodeTail2,
        if_pos (show 0x80 ≤ 0x80 + c.toNat % 64 ∧ 0x80 + c.toNat % 64 ≤ 0xBF by omega)]
      have hv : (0xC0 + c.toNat / 64 - 0xC0) * 64 + (0x80 + c.toNat % 64 - 0x80) = c.toNat := by
        omega
      rw [hv, hofn]
    · by_cases h3 : c.toNat < 0x10000
      · have he : encodeChar c =
            [0xE0 + c.toNat / 4096, 0x80 + (c.toNat / 64) % 64, 0x80 + c.toNat % 64] := by
          unfold encodeChar
          rw [if_neg h1, if_neg h2, if_pos h3]
        rw [he, List.cons_append, List.cons_append, List.singleton_append]
        have hcont : cont3OK (0xE0 + c.toNat / 4096) (0x80 + (c.toNat / 64) % 64) := by
          unfold cont3OK
          split_ifs with hb1 hb2
          · constructor <;> omega
          · rcases hval with hlo | ⟨hhi, -⟩
            · constructor <;> omega
            · omega
          · constructor <;> omega
        rw [decodeUtf8, if_neg (by omega),
          if_neg (show ¬ (0xC2 ≤ 0xE0 + c.toNat / 4096 ∧ 0xE0 + c.toNat / 4096 ≤ 0xDF) by omega),
          if_pos (show 0xE0 ≤ 0xE0 + c.toNat / 4096 ∧ 0xE0 + c.toNat / 4096 ≤ 0xEF by omega),
          decodeTail3, if_pos ⟨hcont, by omega, by omega⟩]
        have hv : (0xE0 + c.toNat / 4096 - 0xE0) * 4096 + (0x80 + (c.toNat / 64) % 64 - 0x80) * 64
            + (0x80 + c.toNat % 64 - 0x80) = c.toNat := by
          omega
        rw [hv, hofn]
      · have h4 : c.toNat < 0x110000 := by
          rcases hval with hlo | ⟨-, hhi⟩
          · omega
          · exact hhi
        have he : encodeChar c =
            [0xF0 + c.toNat / 262144, 0x80 + (c.toNat / 4096) % 64,
             0x80 + (c.toNat / 64) % 64, 0x80 + c.toNat % 64] := by
          unfold encodeChar
          rw [if_neg h1, if_neg h2, if_neg h3]
        rw [he, List.cons_append, List.cons_append, List.cons_append, List.singleton_append]
        have hcont : cont4OK (0xF0 + c.toNat / 262144) (0x80 + (c.toNat / 4096) % 64) := by
          unfold cont4OK
          split_ifs with hb1 hb2
          · constructor <;> omega
          · constructor <;> omega
          · constructor <;> omega
        rw [decodeUtf8, if_neg (by omega),
          if_neg (show ¬ (0xC2 ≤ 0xF0 + c.toNat / 262144 ∧ 0xF0 + c.toNat / 262144 ≤ 0xDF) by omega),
          if_neg (show ¬ (0xE0 ≤ 0xF0 + c.toNat / 262144 ∧ 0xF0 + c.toNat / 262144 ≤ 0xEF) by omega),
          if_pos (show 0xF0 ≤ 0xF0 + c.toNat / 262144 ∧ 0xF0 + c.toNat / 262144 ≤ 0xF4 by omega),
          decodeTail4, if_pos ⟨hcont, ⟨by omega, by omega⟩, by omega, by omega⟩]
        have hv : (0xF0 + c.toNat / 262144 - 0xF0) * 262144
            + (0x80 + (c.toNat / 4096) % 64 - 0x80) * 4096
            + (0x80 + (c.toNat / 64) % 64 - 0x80) * 64 + (0x80 + c.toNat % 64 - 0x80)
            = c.toNat := by
          omega
        rw [hv, hofn]

/-- Writing a string as UTF-8 and reading it back yields the same string:
Python write_text followed by read_text round-trips the decoded content. -/
theorem decodeUtf8_encodeUtf8 : ∀ s : List Char, decodeUtf8 (encodeUtf8 s) = some s := by
  intro s
  induction s with
  | nil => rfl
  | cons c t ih =>
    have hc : encodeUtf8 (c :: t) = encodeChar c ++ encodeUtf8 t := by
      simp [encodeUtf8]
    rw [hc, decodeUtf8_encodeChar, ih]
    rfl

/-- Universal-newlines translation removes every carriage return. -/
theorem no_cr_translateNLAux : ∀ (n : Nat) (s : List Char), s.length ≤ n →
    '\r' ∉ translateNL s := by
  intro n
  induction n with
  | zero =>
    intro s hlen
    have : s = [] := List.length_eq_zero.mp (Nat.le_zero.mp hlen)
    subst this
    simp [translateNL]
  | succ n ih =>
    intro s hlen
    match s with
    | [] => simp [translateNL]
    | [c] =>
      by_cases hc : c = '\r'
      · rw [translateNL, if_pos hc]
        decide
      · rw [translateNL, if_neg hc]
        intro hm
        exact hc (List.mem_singleton.mp hm).symm
    | c1 :: c2 :: t =>
      have hlt : (c2 :: t).length ≤ n := by
        simp only [List.length_cons] at hlen ⊢
        omega
      have hlt2 : t.length ≤ n := by
        simp only [List.length_cons] at hlt
        omega
      by_cases hc1 : c1 = '\r'
      · by_cases hc2 : c2 = '\n'
        · rw [translateNL, if_pos hc1, if_pos hc2]
          intro hm
          rcases List.mem_cons.mp hm with h | h
          · simp at h
          · exact ih t hlt2 h
        · rw [translateNL, if_pos hc1, if_neg hc2]
          intro hm
          rcases List.mem_cons.mp hm with h | h
          · simp at h
          · exact ih (c2 :: t) hlt h
      · rw [translateNL, if_neg hc1]
        intro hm
        rcases List.mem_cons.mp hm with h | h
        · exact hc1 (h ▸ rfl)
        · exact ih (c2 :: t) hlt h

theorem no_cr_translateNL (s : List Char) : '\r' ∉ translateNL s :=
  no_cr_translateNLAux s.length s (Nat.le_refl _)

/-- Translation is the identity on a string without carriage returns. -/
theorem translateNL_of_no_cr : ∀ (n : Nat) (s : List Char), s.length ≤ n →
    '\r' ∉ s → translateNL s = s := by
  intro n
  induction n with
  | zero =>
    intro s hlen _
    have : s = [] := List.length_eq_zero.mp (Nat.le_zero.mp hlen)
    subst this
    rfl
  | succ n ih =>
    intro s hlen hs
    match s with
    | [] => rfl
    | [c] =>
      have hc : c ≠ '\r' := fun h => hs (by simp [h])
      rw [translateNL, if_neg hc]
    | c1 :: c2 :: t =>
      have hc1 : c1 ≠ '\r' := fun h => hs (by simp [h])
      have hrest : '\r' ∉ c2 :: t := fun h => hs (List.mem_cons_of_mem c1 h)
      have hlt : (c2 :: t).length ≤ n := by
        simp only [List.length_cons] at hlen ⊢
        omega
      rw [translateNL, if_neg hc1, ih (c2 :: t) hlt hrest]

theorem FsTree.eta (t : FsTree) : FsTree.node t.name t.subs t.files = t := by
  cases t
  rfl

theorem FsTree.name_node (n : List Char) (s : List FsTree) (f : List (List Char × List Nat)) :
    (FsTree.node n s f).name = n := rfl

theorem FsTree.subs_node (n : List Char) (s : List FsTree) (f : List (List Char × List Nat)) :
    (FsTree.node n s f).subs = s := rfl

theorem FsTree.files_node (n : List Char) (s : List FsTree) (f : List (List Char × List Nat)) :
    (FsTree.node n s f).files = f := rfl

theorem execOps_nil (t : FsTree) : execOps [] t = some t := rfl

theorem execOps_cons (op : MoveOp) (ops : List MoveOp) (t : FsTree) :
    execOps (op :: ops) t = (execOp t op).bind (fun t' => execOps ops t') := rfl

theorem execOps_append (A B : List MoveOp) :
    ∀ t : FsTree, execOps (A ++ B) t = (execOps A t).bind (fun t' => execOps B t') := by
  induction A with
  | nil => intro t; rfl
  | cons op A ih =>
    intro t
    rw [List.cons_append, execOps_cons, execOps_cons]
    cases execOp t op with
    | none => rfl
    | some t1 =>
      simp only [Option.some_bind]
      exact ih t1

theorem findSub_name : ∀ (subs : List FsTree) (x : List Char) (d : FsTree),
    findSub subs x = some d → d.name = x := by
  intro subs
  induction subs with
  | nil => intro x d h; simp [findSub] at h
  | cons d0 ds ih =>
    intro x d h
    rw [findSub] at h
    by_cases h0 : d0.name = x
    · rw [if_pos h0] at h
      cases h
      exact h0
    · rw [if_neg h0] at h
      exact ih x d h

theorem findSub_eq_none : ∀ (subs : List FsTree) (x : List Char),
    x ∉ subs.map FsTree.name → findSub subs x = none := by
  intro subs
  induction subs with
  | nil => intro x _; rfl
  | cons d0 ds ih =>
    intro x hx
    have h0 : d0.name ≠ x := by
      intro h
      exact hx (by simp [← h])
    rw [findSub, if_neg h0]
    exact ih x (fun h => hx (List.mem_cons_of_mem _ h))

theorem findSub_append_left_none : ∀ (A B : List FsTree) (x : List Char),
    x ∉ A.map FsTree.name → findSub (A ++ B) x = findSub B x := by
  intro A
  induction A with
  | nil => intro B x _; rfl
  | cons d0 ds ih =>
    intro B x hx
    have h0 : d0.name ≠ x := by
      intro h
      exact hx (by simp [← h])
    rw [List.cons_append, findSub, if_neg h0]
    exact ih B x (fun h => hx (List.mem_cons_of_mem _ h))

theorem findSub_cons_self (d : FsTree) (ds : List FsTree) :
    findSub (d :: ds) d.name = some d := by
  rw [findSub, if_pos rfl]

theorem lookupFile_eq_none : ∀ (files : List (List Char × List Nat)) (x : List Char),
    x ∉ files.map Prod.fst → lookupFile files x = none := by
  intro files
  induction files with
  | nil => intro x _; rfl
  | cons e es ih =>
    intro x hx
    have h0 : e.1 ≠ x := by
      intro h
      exact hx (by simp [← h])
    rw [lookupFile, if_neg h0]
    exact ih x (fun h => hx (List.mem_cons_of_mem _ h))

theorem lookupFile_append_left_none : ∀ (A B : List (List Char × List Nat)) (x : List Char),
    x ∉ A.map Prod.fst → lookupFile (A ++ B) x = lookupFile B x := by
  intro A
  induction A with
  | nil => intro B x _; rfl
  | cons e es ih =>
    intro B x hx
    have h0 : e.1 ≠ x := by
      intro h
      exact hx (by simp [← h])
    rw [List.cons_append, lookupFile, if_neg h0]
    exact ih B x (fun h => hx (List.mem_cons_of_mem _ h))

theorem lookupFile_cons_self (e : List Char × List Nat) (es : List (List Char × List Nat)) :
    lookupFile (e :: es) e.1 = some e.2 := by
  rw [lookupFile, if_pos rfl]

theorem replaceSub_not_mem : ∀ (A : List FsTree) (x : List Char) (d' : FsTree),
    x ∉ A.map FsTree.name → replaceSubByName A x d' = A := by
  intro A
  induction A with
  | nil => intro x d' _; rfl
  | cons d0 ds ih =>
    intro x d' hx
    have h0 : d0.name ≠ x := by
      intro h
      exact hx (by simp [← h])
    simp only [replaceSubByName, List.map_cons, if_neg h0]
    have := ih x d' (fun h => hx (List.mem_cons_of_mem _ h))
    simp only [replaceSubByName] at this
    rw [this]

theorem replaceSub_split (pre post : List FsTree) (d d' : FsTree)
    (hpre : d.name ∉ pre.map FsTree.name) (hpost : d.name ∉ post.map FsTree.name) :
    replaceSubByName (pre ++ d :: post) d.name d' = pre ++ d' :: post := by
  have h1 := replaceSub_not_mem pre d.name d' hpre
  have h2 := replaceSub_not_mem post d.name d' hpost
  simp only [replaceSubByName] at h1 h2 ⊢
  rw [List.map_append, List.map_cons, if_pos rfl, h1, h2]

theorem replaceSub_names : ∀ (subs : List FsTree) (x : List Char) (d' : FsTree),
    d'.name = x → (replaceSubByName subs x d').map FsTree.name = subs.map FsTree.name := by
  intro subs
  induction subs with
  | nil => intro x d' _; rfl
  | cons d0 ds ih =>
    intro x d' hd'
    simp only [replaceSubByName, List.map_cons, List.map_map] at ih ⊢
    by_cases h0 : d0.name = x
    · rw [if_pos h0]
      have := ih x d' hd'
      simp only [Function.comp] at this ⊢
      rw [this, hd', h0]
    · rw [if_neg h0]
      have := ih x d' hd'
      simp only [Function.comp] at this ⊢
      rw [this]

theorem findSub_replaceSub : ∀ (subs : List FsTree) (x : List Char) (d d' : FsTree),
    findSub subs x = some d → d'.name = x →
    findSub (replaceSubByName subs x d') x = some d' := by
  intro subs
  induction subs with
  | nil => intro x d d' h _; simp [findSub] at h
  | cons d0 ds ih =>
    intro x d d' h hd'
    by_cases h0 : d0.name = x
    · simp only [replaceSubByName, List.map_cons, if_pos h0]
      rw [findSub, if_pos hd']
    · rw [findSub, if_neg h0] at h
      simp only [replaceSubByName, List.map_cons, if_neg h0]
      rw [findSub, if_neg h0]
      exact ih x d d' h hd'

theorem replaceSub_replaceSub : ∀ (subs : List FsTree) (x : List Char) (d1 d2 : FsTree),
    d1.name = x →
    replaceSubByName (replaceSubByName subs x d1) x d2 = replaceSubByName subs x d2 := by
  intro subs
  induction subs with
  | nil => intro x d1 d2 _; rfl
  | cons d0 ds ih =>
    intro x d1 d2 hd1
    have hih := ih x d1 d2 hd1
    simp only [replaceSubByName] at hih
    by_cases h0 : d0.name = x
    · simp [replaceSubByName, h0, hd1, hih]
    · simp [replaceSubByName, h0, hih]

theorem replaceSub_self : ∀ (subs : List FsTree) (x : List Char) (d : FsTree),
    (subs.map FsTree.name).Nodup → findSub subs x = some d →
    replaceSubByName subs x d = subs := by
  intro subs
  induction subs with
  | nil => intro x d _ h; simp [findSub] at h
  | cons d0 ds ih =>
    intro x d hnd h
    simp only [List.map_cons, List.nodup_cons] at hnd
    by_cases h0 : d0.name = x
    · rw [findSub, if_pos h0] at h
      cases h
      simp only [replaceSubByName, List.map_cons, if_pos h0]
      have : replaceSubByName ds x d0 = ds :=
        replaceSub_not_mem ds x d0 (h0 ▸ hnd.1)
      simp only [replaceSubByName] at this
      rw [this]
    · rw [findSub, if_neg h0] at h
      simp only [replaceSubByName, List.map_cons, if_neg h0]
      have := ih x d hnd.2 h
      simp only [replaceSubByName] at this
      rw [this]

theorem renameFileInNode_name (nd : FsTree) (src dst : List Char) (nd' : FsTree)
    (h : renameFileInNode nd src dst = some nd') : nd'.name = nd.name := by
  unfold renameFileInNode at h
  split at h
  · exact absurd h (by simp)
  · split at h
    · split at h
      · exact absurd h (by simp)
      · cases h
        rfl
    · cases h
      rfl

theorem renameDirInNode_name (nd : FsTree) (src dst : List Char) (nd' : FsTree)
    (h : renameDirInNode nd src dst = some nd') : nd'.name = nd.name := by
  unfold renameDirInNode at h
  split at h
  · cases h
    rfl
  · split at h
    · exact absurd h (by simp)
    · cases h
      rfl

theorem modifyAt_name (f : FsTree → Option FsTree)
    (hf : ∀ nd nd', f nd = some nd' → nd'.name = nd.name) :
    ∀ (p : List (List Char)) (t t' : FsTree), modifyAt f p t = some t' → t'.name = t.name := by
  intro p
  induction p with
  | nil => intro t t' h; exact hf t t' h
  | cons x rest ih =>
    intro t t' h
    rw [modifyAt] at h
    split at h
    · exact absurd h (by simp)
    · cases h3 : modifyAt f rest _ with
      | none => rw [h3] at h; exact absurd h (by simp)
      | some d' =>
        rw [h3] at h
        simp only [Option.map_some'] at h
        cases h
        rfl

theorem execOp_name (t : FsTree) (op : MoveOp) (t' : FsTree)
    (h : execOp t op = some t') : t'.name = t.name := by
  refine modifyAt_name _ ?_ op.parent t t' h
  intro nd nd' hnd
  by_cases hd : op.isDir
  · rw [if_pos hd] at hnd
    exact renameDirInNode_name nd op.src op.dst nd' hnd
  · rw [if_neg hd] at hnd
    exact renameFileInNode_name nd op.src op.dst nd' hnd

theorem execOps_name : ∀ (ops : List MoveOp) (t t' : FsTree),
    execOps ops t = some t' → t'.name = t.name := by
  intro ops
  induction ops with
  | nil => intro t t' h; cases h; rfl
  | cons op rest ih =>
    intro t t' h
    rw [execOps_cons] at h
    cases h1 : execOp t op with
    | none => rw [h1] at h; exact absurd h (by simp)
    | some t1 =>
      rw [h1] at h
      simp only [Option.some_bind] at h
      rw [ih t1 t' h]
      exact execOp_name t op t1 h1

theorem execOp_shift (x : List Char) (op : MoveOp) (t : FsTree) :
    execOp t (shiftOp x op) =
      match findSub t.subs x with
      | none => none
      | some d =>
        (execOp d op).map
          (fun d' => FsTree.node t.name (replaceSubByName t.subs x d') t.files) := rfl

/-- Moves shifted into the subdirectory x act exactly on that subdirectory:
when they all succeed there, the shifted sequence succeeds on the parent and
replaces the subdirectory in place. -/
theorem execOps_shift : ∀ (L : List MoveOp) (x : List Char) (t d d' : FsTree),
    (t.subs.map FsTree.name).Nodup →
    findSub t.subs x = some d → execOps L d = some d' →
    execOps (L.map (shiftOp x)) t =
      some (FsTree.node t.name (replaceSubByName t.subs x d') t.files) := by
  intro L
  induction L with
  | nil =>
    intro x t d d' hnd hf he
    cases he
    rw [List.map_nil, execOps_nil, replaceSub_self t.subs x d hnd hf, FsTree.eta]
  | cons op L ih =>
    intro x t d d' hnd hf he
    rw [execOps_cons] at he
    cases h1 : execOp d op with
    | none => rw [h1] at he; exact absurd he (by simp)
    | some d1 =>
      rw [h1] at he
      simp only [Option.some_bind] at he
      have hd1name : d1.name = x := by
        rw [execOp_name d op d1 h1]
        exact findSub_name t.subs x d hf
      rw [List.map_cons, execOps_cons, execOp_shift, hf]
      simp only [h1, Option.map_some', Option.some_bind]
      have hT1nodup : ((replaceSubByName t.subs x d1).map FsTree.name).Nodup := by
        rw [replaceSub_names t.subs x d1 hd1name]
        exact hnd
      have hT1find : findSub (replaceSubByName t.subs x d1) x = some d1 :=
        findSub_replaceSub t.subs x d d1 hf hd1name
      have := ih x (FsTree.node t.name (replaceSubByName t.subs x d1) t.files) d1 d'
        (by simpa [FsTree.subs] using hT1nodup) (by simpa [FsTree.subs] using hT1find) he
      rw [this]
      simp only [FsTree.name_node, FsTree.subs_node, FsTree.files_node]
      rw [replaceSub_replaceSub t.subs x d1 d' hd1name]

theorem withName_name (n : List Char) (d : FsTree) : (d.withName n).name = n := by
  cases d
  rfl

theorem innerRename_name (rs : List (List Char × List Char)) (t : FsTree) :
    (innerRename rs t).name = t.name := by
  cases t
  rfl

theorem innerRenameSubs_eq (rs : List (List Char × List Char)) :
    ∀ subs : List FsTree, innerRenameSubs rs subs = (subs.map (innerRename rs)).map (renD rs) := by
  intro subs
  induction subs with
  | nil => rfl
  | cons d ds ih =>
    rw [innerRenameSubs, List.map_cons, List.map_cons, ih]
    rw [renD, innerRename_name]

theorem innerRenameSubs_names (rs : List (List Char × List Char)) :
    ∀ subs : List FsTree, (subs.map (innerRename rs)).map FsTree.name = subs.map FsTree.name := by
  intro subs
  induction subs with
  | nil => rfl
  | cons d ds ih =>
    simp only [List.map_cons, innerRename_name, ih]

theorem effNew_of_changed_none {rs : List (List Char × List Char)} {n : List Char}
    (h : changedName rs n = none) : effNew rs n = n := by
  unfold changedName at h
  unfold effNew
  by_cases hm : hasMarker n = true
  · by_cases ha : applyReplacements rs n = n
    · rw [if_pos hm, ha]
    · exact absurd h (by rw [if_pos ⟨hm, ha⟩]; simp)
  · rw [if_neg hm]

theorem effNew_of_changed_some {rs : List (List Char × List Char)} {n m : List Char}
    (h : changedName rs n = some m) : effNew rs n = m := by
  unfold changedName at h
  unfold effNew
  by_cases hc : hasMarker n = true ∧ applyReplacements rs n ≠ n
  · rw [if_pos hc] at h
    cases h
    rw [if_pos hc.1]
  · rw [if_neg hc] at h
    exact absurd h (by simp)

theorem changedName_ne {rs : List (List Char × List Char)} {n m : List Char}
    (h : changedName rs n = some m) : m ≠ n := by
  unfold changedName at h
  by_cases hc : hasMarker n = true ∧ applyReplacements rs n ≠ n
  · rw [if_pos hc] at h
    cases h
    exact hc.2
  · rw [if_neg hc] at h
    exact absurd h (by simp)

/-- Sources of equal filtered values in a duplicate-free filterMap image
coincide. -/
theorem filterMap_nodup_inj {α β : Type} (f : α → Option β) :
    ∀ (l : List α), (l.filterMap f).Nodup →
      ∀ a b m, a ∈ l → b ∈ l → f a = some m → f b = some m →
        ∀ (i j : Nat) (hi : i < l.length) (hj : j < l.length),
          l.get ⟨i, hi⟩ = a → l.get ⟨j, hj⟩ = b → i ≠ j → False := by
  intro l
  induction l with
  | nil => intro _ a b m ha _ _ _ _ _ hi _ _ _ _; simp at hi
  | cons x xs ih =>
    intro hnd a b m ha hb hfa hfb i j hi hj hgi hgj hij
    have hrec := List.filterMap_cons (f := f) (a := x) (l := xs)
    match i, j with
    | 0, 0 => exact hij rfl
    | 0, Nat.succ j' =>
      simp only [List.get] at hgi hgj
      subst hgi
      have hmx : m ∈ xs.filterMap f := by
        refine List.mem_filterMap.mpr ⟨b, ?_, hfb⟩
        rw [← hgj]
        exact List.get_mem xs _ _
      rw [hrec, hfa] at hnd
      rcases List.nodup_cons.mp hnd with ⟨hnm, -⟩
      exact hnm hmx
    | Nat.succ i', 0 =>
      simp only [List.get] at hgi hgj
      subst hgj
      have hmx : m ∈ xs.filterMap f := by
        refine List.mem_filterMap.mpr ⟨a, ?_, hfa⟩
        rw [← hgi]
        exact List.get_mem xs _ _
      rw [hrec, hfb] at hnd
      rcases List.nodup_cons.mp hnd with ⟨hnm, -⟩
      exact hnm hmx
    | Nat.succ i', Nat.succ j' =>
      simp only [List.get] at hgi hgj
      have hnd' : (xs.filterMap f).Nodup := by
        rw [hrec] at hnd
        cases hfx : f x with
        | none => rw [hfx] at hnd; exact hnd
        | some y => rw [hfx] at hnd; exact (List.nodup_cons.mp hnd).2
      have hamem : a ∈ xs := by rw [← hgi]; exact List.get_mem xs _ _
      have hbmem : b ∈ xs := by rw [← hgj]; exact List.get_mem xs _ _
      exact ih hnd' a b m hamem hbmem hfa hfb i' j'
        (by simpa using hi) (by simpa using hj) hgi hgj
        (fun h => hij (by rw [h]))

/-- Wrapper: two distinct sources cannot map to the same changed name when
the image is duplicate-free. -/
theorem changed_src_inj {α β : Type} {f : α → Option β} {l : List α}
    (hnd : (l.filterMap f).Nodup) {a b : α} {m : β}
    (ha : a ∈ l) (hb : b ∈ l) (hab : a ≠ b)
    (hfa : f a = some m) (hfb : f b = some m) : False := by
  obtain ⟨⟨i, hi⟩, hgi⟩ := List.mem_iff_get.mp ha
  obtain ⟨⟨j, hj⟩, hgj⟩ := List.mem_iff_get.mp hb
  have hij : i ≠ j := by
    intro h
    subst h
    rw [hgi] at hgj
    exact hab hgj
  exact filterMap_nodup_inj f l hnd a b m ha hb hfa hfb i j hi hj hgi hgj hij

theorem entries_map_id (s m : List Char) :
    ∀ L : List (List Char × List Nat), (∀ x ∈ L, x.1 ≠ s) →
      L.map (fun x => if x.1 = s then (m, x.2) else x) = L := by
  intro L
  induction L with
  | nil => intro _; rfl
  | cons x xs ih =>
    intro h
    rw [List.map_cons, if_neg (h x (List.mem_cons_self x xs)),
      ih (fun y hy => h y (List.mem_cons_of_mem x hy))]

theorem entries_filter_id (m : List Char) :
    ∀ L : List (List Char × List Nat), (∀ x ∈ L, x.1 ≠ m) →
      L.filter (fun x => ¬ x.1 = m) = L := by
  intro L
  induction L with
  | nil => intro _; rfl
  | cons x xs ih =>
    intro h
    rw [List.filter_cons]
    rw [if_pos (by simpa using h x (List.mem_cons_self x xs))]
    rw [ih (fun y hy => h y (List.mem_cons_of_mem x hy))]

theorem renF_names (rs : List (List Char × List Char)) :
    ∀ P : List (List Char × List Nat),
      (P.map (renF rs)).map Prod.fst = (P.map Prod.fst).map (effNew rs) := by
  intro P
  induction P with
  | nil => rfl
  | cons e es ih => simp only [List.map_cons, renF, ih]

theorem effNew_cases (rs : List (List Char × List Char)) (n : List Char) :
    (changedName rs n = none ∧ effNew rs n = n) ∨
      ∃ m, changedName rs n = some m ∧ effNew rs n = m := by
  cases hc : changedName rs n with
  | none => exact Or.inl ⟨rfl, effNew_of_changed_none hc⟩
  | some m => exact Or.inr ⟨m, rfl, effNew_of_changed_some hc⟩

/-- Phase two of a directory's processing: executing the file moves of a
directory turns its original file list into the fully renamed file list,
leaving subdirectories untouched, provided old names and changed new names
are collision-free. -/
theorem execFileOpsAux (rs : List (List Char × List Char)) (nm : List Char)
    (subsCur : List FsTree) (F : List (List Char × List Nat))
    (hnd : ((subsCur.map FsTree.name ++ F.map Prod.fst)
        ++ (subsCur.map FsTree.name ++ F.map Prod.fst).filterMap (changedName rs)).Nodup) :
    ∀ (S P : List (List Char × List Nat)), P ++ S = F →
      execOps (fileOps rs [] S) (FsTree.node nm subsCur ((P.map (renF rs)) ++ S))
        = some (FsTree.node nm subsCur (F.map (renF rs))) := by
  rcases List.nodup_append.mp hnd with ⟨holds, hnews, hdisj⟩
  rcases List.nodup_append.mp holds with ⟨-, hfileN, hsf⟩
  intro S
  induction S with
  | nil =>
    intro P hPS
    rw [List.append_nil] at hPS
    subst hPS
    rw [fileOps, List.filterMap_nil, execOps_nil, List.append_nil]
  | cons e S2 ih =>
    intro P hPS
    have heF : e ∈ F := by
      rw [← hPS]
      exact List.mem_append.mpr (Or.inr (List.mem_cons_self e S2))
    have heOld : e.1 ∈ subsCur.map FsTree.name ++ F.map Prod.fst :=
      List.mem_append.mpr (Or.inr (List.mem_map_of_mem Prod.fst heF))
    have hFnames : F.map Prod.fst = P.map Prod.fst ++ e.1 :: S2.map Prod.fst := by
      rw [← hPS, List.map_append, List.map_cons]
    have heP : e.1 ∉ P.map Prod.fst := by
      intro hmem
      rw [hFnames] at hfileN
      rcases List.nodup_append.mp hfileN with ⟨-, -, hd⟩
      exact hd hmem (List.mem_cons_self _ _)
    have heS2 : e.1 ∉ S2.map Prod.fst := by
      rw [hFnames] at hfileN
      rcases List.nodup_append.mp hfileN with ⟨-, hcs, -⟩
      exact (List.nodup_cons.mp hcs).1
    -- names of the already renamed prefix never collide with the name of e
    have hPcur : ∀ x ∈ P.map (renF rs), x.1 ≠ e.1 := by
      intro x hx
      obtain ⟨p, hp, hpe⟩ := List.mem_map.mp hx
      have hpF : p ∈ F := by
        rw [← hPS]; exact List.mem_append.mpr (Or.inl hp)
      have hpOld : p.1 ∈ subsCur.map FsTree.name ++ F.map Prod.fst :=
        List.mem_append.mpr (Or.inr (List.mem_map_of_mem Prod.fst hpF))
      rcases effNew_cases rs p.1 with ⟨-, hef⟩ | ⟨mp, hcp, hef⟩
      · intro hxe
        rw [← hpe] at hxe
        simp only [renF] at hxe
        rw [hef] at hxe
        exact heP (hxe ▸ List.mem_map_of_mem Prod.fst hp)
      · intro hxe
        rw [← hpe] at hxe
        simp only [renF] at hxe
        rw [hef] at hxe
        subst hxe
        exact hdisj heOld (List.mem_filterMap.mpr ⟨p.1, hpOld, hcp⟩)
    cases hc : changedName rs e.1 with
    | none =>
      have hops : fileOps rs [] (e :: S2) = fileOps rs [] S2 := by
        rw [fileOps, List.filterMap_cons, hc]
        rfl
      have hren : renF rs e = e := by
        simp only [renF, effNew_of_changed_none hc]
      have hstate : (P.map (renF rs)) ++ e :: S2 = ((P ++ [e]).map (renF rs)) ++ S2 := by
        rw [List.map_append, List.map_cons, List.map_nil, List.append_assoc, hren]
        rfl
      rw [hops, hstate]
      exact ih (P ++ [e]) (by rw [List.append_assoc]; exact hPS)
    | some m =>
      have hmnew : m ∈ (subsCur.map FsTree.name ++ F.map Prod.fst).filterMap (changedName rs) :=
        List.mem_filterMap.mpr ⟨e.1, heOld, hc⟩
      have hops : fileOps rs [] (e :: S2) = ⟨[], false, e.1, m⟩ :: fileOps rs [] S2 := by
        rw [fileOps, List.filterMap_cons, hc]
        rfl
      rw [hops, execOps_cons]
      have hlookup : lookupFile ((P.map (renF rs)) ++ e :: S2) e.1 = some e.2 := by
        rw [lookupFile_append_left_none _ _ _ (by
          intro hmem
          obtain ⟨x, hx, hxe⟩ := List.mem_map.mp hmem
          exact hPcur x hx hxe)]
        exact lookupFile_cons_self e S2
      have hfind : findSub subsCur m = none := by
        refine findSub_eq_none subsCur m ?_
        intro hmem
        exact hdisj (List.mem_append.mpr (Or.inl hmem)) hmnew
      have hnocur : ∀ x ∈ (P.map (renF rs)) ++ e :: S2, x.1 ≠ m := by
        intro x hx
        rcases List.mem_append.mp hx with hx1 | hx2
        · obtain ⟨p, hp, hpe⟩ := List.mem_map.mp hx1
          have hpF : p ∈ F := by
            rw [← hPS]; exact List.mem_append.mpr (Or.inl hp)
          have hpOld : p.1 ∈ subsCur.map FsTree.name ++ F.map Prod.fst :=
            List.mem_append.mpr (Or.inr (List.mem_map_of_mem Prod.fst hpF))
          rcases effNew_cases rs p.1 with ⟨-, hef⟩ | ⟨mp, hcp, hef⟩
          · intro hxe
            rw [← hpe] at hxe
            simp only [renF] at hxe
            rw [hef] at hxe
            exact hdisj (hxe ▸ hpOld) hmnew
          · intro hxe
            rw [← hpe] at hxe
            simp only [renF] at hxe
            rw [hef] at hxe
            subst hxe
            have hpne : p.1 ≠ e.1 := by
              intro h
              exact heP (h ▸ List.mem_map_of_mem Prod.fst hp)
            exact changed_src_inj hnews hpOld heOld hpne hcp hc
        · rcases List.mem_cons.mp hx2 with hx3 | hx3
          · subst hx3
            intro hxe
            exact hdisj (hxe ▸ heOld) hmnew
          · intro hxe
            have hxF : x ∈ F := by
              rw [← hPS]
              exact List.mem_append.mpr (Or.inr (List.mem_cons_of_mem e hx3))
            have hxOld : x.1 ∈ subsCur.map FsTree.name ++ F.map Prod.fst :=
              List.mem_append.mpr (Or.inr (List.mem_map_of_mem Prod.fst hxF))
            exact hdisj (hxe ▸ hxOld) hmnew
      have hexec : execOp (FsTree.node nm subsCur ((P.map (renF rs)) ++ e :: S2))
          ⟨[], false, e.1, m⟩
          = some (FsTree.node nm subsCur (((P ++ [e]).map (renF rs)) ++ S2)) := by
        show renameFileInNode (FsTree.node nm subsCur ((P.map (renF rs)) ++ e :: S2)) e.1 m
          = _
        unfold renameFileInNode
        simp only [FsTree.subs_node, FsTree.files_node, FsTree.name_node]
        rw [hlookup, hfind]
        rw [entries_filter_id m _ hnocur]
        have hmap : ((P.map (renF rs)) ++ e :: S2).map
            (fun x => if x.1 = e.1 then (m, x.2) else x)
            = ((P ++ [e]).map (renF rs)) ++ S2 := by
          rw [List.map_append, List.map_cons]
          rw [entries_map_id e.1 m _ hPcur]
          rw [if_pos rfl]
          rw [entries_map_id e.1 m S2 (by
            intro x hx hxe
            exact heS2 (hxe ▸ List.mem_map_of_mem Prod.fst hx))]
          rw [List.map_append, List.map_cons, List.map_nil, List.append_assoc]
          have : renF rs e = (m, e.2) := by
            simp only [renF, effNew_of_changed_some hc]
          rw [this]
          rfl
        rw [hmap]
      rw [hexec]
      simp only [Option.some_bind]
      exact ih (P ++ [e]) (by rw [List.append_assoc]; exact hPS)

theorem dirs_map_id (s dst : List Char) :
    ∀ L : List FsTree, (∀ x ∈ L, x.name ≠ s) →
      L.map (fun x => if x.name = s then x.withName dst else x) = L := by
  intro L
  induction L with
  | nil => intro _; rfl
  | cons x xs ih =>
    intro h
    rw [List.map_cons, if_neg (h x (List.mem_cons_self x xs)),
      ih (fun y hy => h y (List.mem_cons_of_mem x hy))]

theorem withName_self (d : FsTree) : d.withName d.name = d := by
  cases d
  rfl

theorem renD_names (rs : List (List Char × List Char)) :
    ∀ P : List FsTree,
      (P.map (renD rs)).map FsTree.name = (P.map FsTree.name).map (effNew rs) := by
  intro P
  induction P with
  | nil => rfl
  | cons d ds ih => simp only [List.map_cons, renD, withName_name, ih]

/-- Phase three of a directory's processing: executing the subdirectory
moves renames every subdirectory in place, leaving the already renamed
files untouched, under the same collision-freedom condition. -/
theorem execDirOpsAux (rs : List (List Char × List Char)) (nm : List Char)
    (F : List (List Char × List Nat)) (D : List FsTree)
    (hnd : ((D.map FsTree.name ++ F.map Prod.fst)
        ++ (D.map FsTree.name ++ F.map Prod.fst).filterMap (changedName rs)).Nodup) :
    ∀ (S P : List FsTree), P ++ S = D →
      execOps (dirOps rs [] S) (FsTree.node nm ((P.map (renD rs)) ++ S) (F.map (renF rs)))
        = some (FsTree.node nm (D.map (renD rs)) (F.map (renF rs))) := by
  rcases List.nodup_append.mp hnd with ⟨holds, hnews, hdisj⟩
  rcases List.nodup_append.mp holds with ⟨hsubN, -, hsf⟩
  intro S
  induction S with
  | nil =>
    intro P hPS
    rw [List.append_nil] at hPS
    subst hPS
    rw [dirOps, List.filterMap_nil, execOps_nil, List.append_nil]
  | cons d S2 ih =>
    intro P hPS
    have hdD : d ∈ D := by
      rw [← hPS]
      exact List.mem_append.mpr (Or.inr (List.mem_cons_self d S2))
    have hdOld : d.name ∈ D.map FsTree.name ++ F.map Prod.fst :=
      List.mem_append.mpr (Or.inl (List.mem_map_of_mem FsTree.name hdD))
    have hDnames : D.map FsTree.name = P.map FsTree.name ++ d.name :: S2.map FsTree.name := by
      rw [← hPS, List.map_append, List.map_cons]
    have hdP : d.name ∉ P.map FsTree.name := by
      intro hmem
      rw [hDnames] at hsubN
      rcases List.nodup_append.mp hsubN with ⟨-, -, hd2⟩
      exact hd2 hmem (List.mem_cons_self _ _)
    have hdS2 : d.name ∉ S2.map FsTree.name := by
      rw [hDnames] at hsubN
      rcases List.nodup_append.mp hsubN with ⟨-, hcs, -⟩
      exact (List.nodup_cons.mp hcs).1
    have hPcur : ∀ x ∈ P.map (renD rs), x.name ≠ d.name := by
      intro x hx
      obtain ⟨p, hp, hpe⟩ := List.mem_map.mp hx
      have hpD : p ∈ D := by
        rw [← hPS]; exact List.mem_append.mpr (Or.inl hp)
      have hpOld : p.name ∈ D.map FsTree.name ++ F.map Prod.fst :=
        List.mem_append.mpr (Or.inl (List.mem_map_of_mem FsTree.name hpD))
      rcases effNew_cases rs p.name with ⟨-, hef⟩ | ⟨mp, hcp, hef⟩
      · intro hxe
        rw [← hpe] at hxe
        simp only [renD, withName_name] at hxe
        rw [hef] at hxe
        exact hdP (hxe ▸ List.mem_map_of_mem FsTree.name hp)
      · intro hxe
        rw [← hpe] at hxe
        simp only [renD, withName_name] at hxe
        rw [hef] at hxe
        subst hxe
        exact hdisj hdOld (List.mem_filterMap.mpr ⟨p.name, hpOld, hcp⟩)
    cases hc : changedName rs d.name with
    | none =>
      have hops : dirOps rs [] (d :: S2) = dirOps rs [] S2 := by
        rw [dirOps, List.filterMap_cons, hc]
        rfl
      have hren : renD rs d = d := by
        simp only [renD, effNew_of_changed_none hc, withName_self]
      have hstate : (P.map (renD rs)) ++ d :: S2 = ((P ++ [d]).map (renD rs)) ++ S2 := by
        rw [List.map_append, List.map_cons, List.map_nil, List.append_assoc, hren]
        rfl
      rw [hops, hstate]
      exact ih (P ++ [d]) (by rw [List.append_assoc]; exact hPS)
    | some m =>
      have hmnew : m ∈ (D.map FsTree.name ++ F.map Prod.fst).filterMap (changedName rs) :=
        List.mem_filterMap.mpr ⟨d.name, hdOld, hc⟩
      have hops : dirOps rs [] (d :: S2) = ⟨[], true, d.name, m⟩ :: dirOps rs [] S2 := by
        rw [dirOps, List.filterMap_cons, hc]
        rfl
      rw [hops, execOps_cons]
      have hlookup : lookupFile (F.map (renF rs)) m = none := by
        refine lookupFile_eq_none _ m ?_
        intro hmem
        rw [renF_names] at hmem
        obtain ⟨fn, hfn, hfe⟩ := List.mem_map.mp hmem
        have hfOld : fn ∈ D.map FsTree.name ++ F.map Prod.fst :=
          List.mem_append.mpr (Or.inr hfn)
        rcases effNew_cases rs fn with ⟨-, hef⟩ | ⟨mf, hcf, hef⟩
        · rw [hef] at hfe
          exact hdisj (hfe ▸ hfOld) hmnew
        · rw [hef] at hfe
          subst hfe
          have hfd : fn ≠ d.name := by
            intro h
            exact hsf (h ▸ List.mem_map_of_mem FsTree.name hdD) hfn
          exact changed_src_inj hnews hfOld hdOld hfd hcf hc
      have hfindm : findSub ((P.map (renD rs)) ++ d :: S2) m = none := by
        refine findSub_eq_none _ m ?_
        intro hmem
        rw [List.map_append, List.map_cons] at hmem
        rcases List.mem_append.mp hmem with hm1 | hm2
        · rw [renD_names] at hm1
          obtain ⟨pn, hpn, hpe⟩ := List.mem_map.mp hm1
          have hpOld : pn ∈ D.map FsTree.name ++ F.map Prod.fst := by
            refine List.mem_append.mpr (Or.inl ?_)
            rw [hDnames]
            exact List.mem_append.mpr (Or.inl hpn)
          rcases effNew_cases rs pn with ⟨-, hef⟩ | ⟨mp, hcp, hef⟩
          · rw [hef] at hpe
            exact hdisj (hpe ▸ hpOld) hmnew
          · rw [hef] at hpe
            subst hpe
            have hpd : pn ≠ d.name := by
              intro h
              subst h
              rw [hDnames] at hsubN
              rcases List.nodup_append.mp hsubN with ⟨-, -, hd2⟩
              exact hd2 hpn (List.mem_cons_self _ _)
            exact changed_src_inj hnews hpOld hdOld hpd hcp hc
        · rcases List.mem_cons.mp hm2 with hm3 | hm3
          · exact hdisj (hm3 ▸ hdOld) hmnew
          · have : m ∈ D.map FsTree.name := by
              rw [hDnames]
              exact List.mem_append.mpr (Or.inr (List.mem_cons_of_mem _ hm3))
            exact hdisj (List.mem_append.mpr (Or.inl this)) hmnew
      have hfindd : findSub ((P.map (renD rs)) ++ d :: S2) d.name = some d := by
        rw [findSub_append_left_none _ _ _ (by
          intro hmem
          obtain ⟨x, hx, hxe⟩ := List.mem_map.mp hmem
          exact hPcur x hx hxe)]
        exact findSub_cons_self d S2
      have hexec : execOp (FsTree.node nm ((P.map (renD rs)) ++ d :: S2) (F.map (renF rs)))
          ⟨[], true, d.name, m⟩
          = some (FsTree.node nm (((P ++ [d]).map (renD rs)) ++ S2) (F.map (renF rs))) := by
        show renameDirInNode
          (FsTree.node nm ((P.map (renD rs)) ++ d :: S2) (F.map (renF rs))) d.name m = _
        unfold renameDirInNode
        simp only [FsTree.subs_node, FsTree.files_node, FsTree.name_node]
        rw [hlookup, hfindm]
        rw [if_neg (by simp)]
        rw [hfindd]
        have hmap : ((P.map (renD rs)) ++ d :: S2).map
            (fun x => if x.name = d.name then x.withName m else x)
            = ((P ++ [d]).map (renD rs)) ++ S2 := by
          rw [List.map_append, List.map_cons]
          rw [dirs_map_id d.name m _ hPcur]
          rw [if_pos rfl]
          rw [dirs_map_id d.name m S2 (by
            intro x hx hxe
            exact hdS2 (hxe ▸ List.mem_map_of_mem FsTree.name hx))]
          rw [List.map_append, List.map_cons, List.map_nil, List.append_assoc]
          have : renD rs d = d.withName m := by
            simp only [renD, effNew_of_changed_some hc]
          rw [this]
          rfl
        rw [hmap]
      rw [hexec]
      simp only [Option.some_bind]
      exact ih (P ++ [d]) (by rw [List.append_assoc]; exact hPS)

/-- Phase one of a directory's processing: the subtree passes of the walk
process every subdirectory's interior in place. -/
theorem execWalkOpsSubsAux (rs : List (List Char × List Char)) (nm : List Char)
    (files : List (List Char × List Nat)) (D : List FsTree)
    (hnd : (D.map FsTree.name).Nodup) :
    ∀ (S P : List FsTree), P ++ S = D →
      (∀ d ∈ S, execOps (walkOps rs d) d = some (innerRename rs d)) →
      execOps (walkOpsSubs rs S) (FsTree.node nm ((P.map (innerRename rs)) ++ S) files)
        = some (FsTree.node nm (D.map (innerRename rs)) files) := by
  intro S
  induction S with
  | nil =>
    intro P hPS _
    rw [List.append_nil] at hPS
    subst hPS
    rw [walkOpsSubs, execOps_nil, List.append_nil]
  | cons d S2 ih =>
    intro P hPS hS
    have hDnames : D.map FsTree.name = P.map FsTree.name ++ d.name :: S2.map FsTree.name := by
      rw [← hPS, List.map_append, List.map_cons]
    have hdP : d.name ∉ P.map FsTree.name := by
      intro hmem
      rw [hDnames] at hnd
      rcases List.nodup_append.mp hnd with ⟨-, -, hd2⟩
      exact hd2 hmem (List.mem_cons_self _ _)
    have hdS2 : d.name ∉ S2.map FsTree.name := by
      rw [hDnames] at hnd
      rcases List.nodup_append.mp hnd with ⟨-, hcs, -⟩
      exact (List.nodup_cons.mp hcs).1
    have hPinner : (P.map (innerRename rs)).map FsTree.name = P.map FsTree.name :=
      innerRenameSubs_names rs P
    rw [walkOpsSubs, execOps_append]
    have hsubnames :
        ((FsTree.node nm ((P.map (innerRename rs)) ++ d :: S2) files).subs.map
          FsTree.name).Nodup := by
      show (((P.map (innerRename rs)) ++ d :: S2).map FsTree.name).Nodup
      rw [List.map_append, hPinner, ← List.map_append, hPS]
      exact hnd
    have hfind : findSub ((P.map (innerRename rs)) ++ d :: S2) d.name = some d := by
      rw [findSub_append_left_none _ _ _ (by rw [hPinner]; exact hdP)]
      exact findSub_cons_self d S2
    have hshift := execOps_shift (walkOps rs d) d.name
      (FsTree.node nm ((P.map (innerRename rs)) ++ d :: S2) files) d (innerRename rs d)
      (by simpa using hsubnames) (by simpa using hfind)
      (hS d (List.mem_cons_self d S2))
    rw [hshift]
    simp only [Option.some_bind, FsTree.name_node, FsTree.subs_node, FsTree.files_node]
    have hrepl : replaceSubByName ((P.map (innerRename rs)) ++ d :: S2) d.name
        (innerRename rs d) = (P.map (innerRename rs)) ++ innerRename rs d :: S2 := by
      refine replaceSub_split _ S2 d (innerRename rs d) ?_ ?_
      · rw [hPinner]; exact hdP
      · exact hdS2
    rw [hrepl]
    have hstate : (P.map (innerRename rs)) ++ innerRename rs d :: S2
        = ((P ++ [d]).map (innerRename rs)) ++ S2 := by
      rw [List.map_append, List.map_cons, List.map_nil, List.append_assoc]
      rfl
    rw [hstate]
    exact ih (P ++ [d]) (by rw [List.append_assoc]; exact hPS)
      (fun e he => hS e (List.mem_cons_of_mem d he))

theorem dirOps_congr_names (rs : List (List Char × List Char)) (p : List (List Char)) :
    ∀ (A B : List FsTree), A.map FsTree.name = B.map FsTree.name →
      dirOps rs p A = dirOps rs p B := by
  intro A
  induction A with
  | nil =>
    intro B h
    cases B with
    | nil => rfl
    | cons b B2 => simp at h
  | cons a A2 ih =>
    intro B h
    cases B with
    | nil => simp at h
    | cons b B2 =>
      simp only [List.map_cons, List.cons.injEq] at h
      rw [dirOps, dirOps, List.filterMap_cons, List.filterMap_cons, h.1]
      have := ih B2 h.2
      rw [dirOps, dirOps] at this
      rw [this]

theorem renameWFSubs_mem (rs : List (List Char × List Char)) :
    ∀ (subs : List FsTree) (d : FsTree), renameWFSubs rs subs = true → d ∈ subs →
      renameWF rs d = true := by
  intro subs
  induction subs with
  | nil => intro d _ hd; simp at hd
  | cons e es ih =>
    intro d hwf hd
    rw [renameWFSubs, Bool.and_eq_true] at hwf
    rcases List.mem_cons.mp hd with h | h
    · subst h; exact hwf.1
    · exact ih d hwf.2 h

/-- Main theorem of the rename stage: on a collision-free tree, the full
sequence of moves performed by rename_files_and_dirs succeeds, with every
move acting on a path that exists at the moment it runs, and produces the
tree in which every file and directory name has its substituted form. -/
theorem execWalkOps_of_sizeLe (rs : List (List Char × List Char)) :
    ∀ (N : Nat) (t : FsTree), sizeOf t ≤ N → renameWF rs t = true →
      execOps (walkOps rs t) t = some (innerRename rs t) := by
  intro N
  induction N with
  | zero =>
    intro t hsize _
    cases t with
    | node nm subs files =>
      rw [FsTree.node.sizeOf_spec] at hsize
      omega
  | succ N ih =>
    intro t hsize hwf
    cases t with
    | node nm subs files =>
      rw [renameWF, Bool.and_eq_true] at hwf
      rcases hwf with ⟨hnd, hwfsubs⟩
      rw [decide_eq_true_eq] at hnd
      have hsubN : (subs.map FsTree.name).Nodup := by
        rcases List.nodup_append.mp hnd with ⟨holds, -, -⟩
        exact (List.nodup_append.mp holds).1
      have hIH : ∀ d ∈ subs, execOps (walkOps rs d) d = some (innerRename rs d) := by
        intro d hd
        have hsz : sizeOf d ≤ N := by
          have h1 : sizeOf d < sizeOf subs := List.sizeOf_lt_of_mem hd
          rw [FsTree.node.sizeOf_spec] at hsize
          omega
        exact ih d hsz (renameWFSubs_mem rs subs d hwfsubs hd)
      rw [walkOps, execOps_append, execOps_append]
      have hA := execWalkOpsSubsAux rs nm files subs hsubN subs [] rfl hIH
      rw [List.map_nil, List.nil_append] at hA
      rw [hA]
      simp only [Option.some_bind]
      have hB := execFileOpsAux rs nm (subs.map (innerRename rs)) files
        (by rw [innerRenameSubs_names]; exact hnd) files [] rfl
      rw [List.map_nil, List.nil_append] at hB
      rw [hB]
      simp only [Option.some_bind]
      have hdirops : dirOps rs [] subs = dirOps rs [] (subs.map (innerRename rs)) :=
        dirOps_congr_names rs [] subs (subs.map (innerRename rs))
          (innerRenameSubs_names rs subs).symm
      rw [hdirops]
      have hC := execDirOpsAux rs nm files (subs.map (innerRename rs))
        (by rw [innerRenameSubs_names]; exact hnd) (subs.map (innerRename rs)) [] rfl
      rw [List.map_nil, List.nil_append] at hC
      rw [hC]
      rw [innerRename, innerRenameSubs_eq]
      rfl

/-- Final packaged form: one run of the rename stage on a collision-free
tree. -/
theorem execWalkOps (rs : List (List Char × List Char)) (t : FsTree)
    (hwf : renameWF rs t = true) :
    execOps (walkOps rs t) t = some (innerRename rs t) :=
  execWalkOps_of_sizeLe rs (sizeOf t) t (Nat.le_refl _) hwf

theorem contentPassAt_name (rs : List (List Char × List Char)) (script : List (List Char))
    (q : List (List Char)) (t : FsTree) : (contentPassAt rs script q t).name = t.name := by
  cases t
  rfl

theorem lookupFile_contentFiles (rs : List (List Char × List Char)) (script : List (List Char))
    (q : List (List Char)) (x : List Char) :
    ∀ files : List (List Char × List Nat),
      lookupFile (files.map (fun e =>
        if selectFile (q ++ [e.1]) script then (e.1, (replaceInFile rs e.2).1) else e)) x
      = (lookupFile files x).map
          (fun dta => if selectFile (q ++ [x]) script then (replaceInFile rs dta).1 else dta) := by
  intro files
  induction files with
  | nil => rfl
  | cons e es ih =>
    by_cases hx : e.1 = x
    · subst hx
      by_cases hc : selectFile (q ++ [e.1]) script = true
      · rw [List.map_cons, if_pos hc, lookupFile, if_pos rfl, lookupFile, if_pos rfl,
          Option.map_some', if_pos hc]
      · rw [List.map_cons, if_neg hc, lookupFile, if_pos rfl, lookupFile, if_pos rfl,
          Option.map_some', if_neg hc]
    · by_cases hc : selectFile (q ++ [e.1]) script = true
      · rw [List.map_cons, if_pos hc, lookupFile, if_neg hx, lookupFile, if_neg hx, ih]
      · rw [List.map_cons, if_neg hc, lookupFile, if_neg hx, lookupFile, if_neg hx, ih]

theorem findSub_contentPassSubs (rs : List (List Char × List Char)) (script : List (List Char))
    (q : List (List Char)) (x : List Char) :
    ∀ subs : List FsTree,
      findSub (contentPassSubs rs script q subs) x
        = (findSub subs x).map (fun d => contentPassAt rs script (q ++ [d.name]) d) := by
  intro subs
  induction subs with
  | nil => rfl
  | cons d ds ih =>
    rw [contentPassSubs, findSub, findSub]
    by_cases hd : d.name = x
    · rw [if_pos (by rw [contentPassAt_name]; exact hd), if_pos hd, Option.map_some']
    · rw [if_neg (by rw [contentPassAt_name]; exact hd), if_neg hd, ih]

/-- Characterization of the content-rewrite stage: the content of the file
at any path after the pass is its old content rewritten exactly when the
path satisfies the hardcoded filter of main, and untouched otherwise. -/
theorem fileAt_contentPass (rs : List (List Char × List Char)) (script : List (List Char)) :
    ∀ (p q : List (List Char)) (t : FsTree),
      fileAt p (contentPassAt rs script q t)
        = (fileAt p t).map
            (fun dta => if selectFile (q ++ p) script then (replaceInFile rs dta).1 else dta) := by
  intro p
  induction p with
  | nil => intro q t; rfl
  | cons x rest ih =>
    intro q t
    cases rest with
    | nil =>
      cases t with
      | node nm subs files =>
        show fileAt [x] (FsTree.node nm (contentPassSubs rs script q subs) _) = _
        rw [fileAt, fileAt, FsTree.files_node]
        exact lookupFile_contentFiles rs script q x files
    | cons y rest2 =>
      cases t with
      | node nm subs files =>
        show fileAt (x :: y :: rest2) (FsTree.node nm (contentPassSubs rs script q subs) _) = _
        rw [fileAt, fileAt, FsTree.subs_node, FsTree.subs_node,
          findSub_contentPassSubs rs script q x subs]
        cases hf : findSub subs x with
        | none => rfl
        | some d =>
          have hdn : d.name = x := findSub_name subs x d hf
          show fileAt (y :: rest2) (contentPassAt rs script (q ++ [d.name]) d)
            = Option.map (fun dta => if selectFile (q ++ x :: y :: rest2) script = true
                then (replaceInFile rs dta).1 else dta) (fileAt (y :: rest2) d)
          rw [ih (q ++ [d.name]) d, hdn, List.append_assoc]
          rfl

theorem contentFiles_names (rs : List (List Char × List Char)) (script : List (List Char))
    (q : List (List Char)) :
    ∀ files : List (List Char × List Nat),
      (files.map (fun e =>
        if selectFile (q ++ [e.1]) script then (e.1, (replaceInFile rs e.2).1) else e)).map
          Prod.fst = files.map Prod.fst := by
  intro files
  induction files with
  | nil => rfl
  | cons e es ih =>
    by_cases hc : selectFile (q ++ [e.1]) script = true
    · rw [List.map_cons, if_pos hc, List.map_cons, List.map_cons, ih]
    · rw [List.map_cons, if_neg hc, List.map_cons, List.map_cons, ih]

theorem contentPassSubs_names (rs : List (List Char × List Char)) (script : List (List Char))
    (q : List (List Char)) :
    ∀ subs : List FsTree,
      (contentPassSubs rs script q subs).map FsTree.name = subs.map FsTree.name := by
  intro subs
  induction subs with
  | nil => rfl
  | cons d ds ih =>
    rw [contentPassSubs, List.map_cons, List.map_cons, contentPassAt_name, ih]

theorem namesBelow_withName (n : List Char) (d : FsTree) : namesBelow (d.withName n) = namesBelow d := by
  cases d
  rfl

/-- The content pass changes no name anywhere in the tree. -/
theorem namesBelow_contentPass (rs : List (List Char × List Char)) (script : List (List Char)) :
    ∀ (N : Nat) (t : FsTree) (q : List (List Char)), sizeOf t ≤ N →
      namesBelow (contentPassAt rs script q t) = namesBelow t := by
  intro N
  induction N with
  | zero =>
    intro t q hsize
    cases t with
    | node nm subs files =>
      rw [FsTree.node.sizeOf_spec] at hsize
      omega
  | succ N ih =>
    intro t q hsize
    cases t with
    | node nm subs files =>
      have hsz : ∀ d ∈ subs, sizeOf d ≤ N := by
        intro d hd
        have h1 : sizeOf d < sizeOf subs := List.sizeOf_lt_of_mem hd
        rw [FsTree.node.sizeOf_spec] at hsize
        omega
      show namesBelow (FsTree.node nm (contentPassSubs rs script q subs) _) = _
      rw [namesBelow, namesBelow, contentFiles_names, contentPassSubs_names]
      have hrec : ∀ ss : List FsTree, (∀ d ∈ ss, sizeOf d ≤ N) →
          namesBelowSubs (contentPassSubs rs script q ss) = namesBelowSubs ss := by
        intro ss
        induction ss with
        | nil => intro _; rfl
        | cons d ds ih2 =>
          intro hss
          rw [contentPassSubs, namesBelowSubs, namesBelowSubs,
            ih d (q ++ [d.name]) (hss d (List.mem_cons_self d ds)),
            ih2 (fun e he => hss e (List.mem_cons_of_mem d he))]
      rw [hrec subs hsz]

/-- The content pass does not affect the collision-freedom of the rename
stage, which depends on names alone. -/
theorem renameWF_contentPass (rs rsc : List (List Char × List Char)) (script : List (List Char)) :
    ∀ (N : Nat) (t : FsTree) (q : List (List Char)), sizeOf t ≤ N →
      renameWF rs (contentPassAt rsc script q t) = renameWF rs t := by
  intro N
  induction N with
  | zero =>
    intro t q hsize
    cases t with
    | node nm subs files =>
      rw [FsTree.node.sizeOf_spec] at hsize
      omega
  | succ N ih =>
    intro t q hsize
    cases t with
    | node nm subs files =>
      have hsz : ∀ d ∈ subs, sizeOf d ≤ N := by
        intro d hd
        have h1 : sizeOf d < sizeOf subs := List.sizeOf_lt_of_mem hd
        rw [FsTree.node.sizeOf_spec] at hsize
        omega
      show renameWF rs (FsTree.node nm (contentPassSubs rsc script q subs) _) = _
      rw [renameWF, renameWF, contentFiles_names, contentPassSubs_names]
      have hrec : ∀ ss : List FsTree, (∀ d ∈ ss, sizeOf d ≤ N) →
          renameWFSubs rs (contentPassSubs rsc script q ss) = renameWFSubs rs ss := by
        intro ss
        induction ss with
        | nil => intro _; rfl
        | cons d ds ih2 =>
          intro hss
          rw [contentPassSubs, renameWFSubs, renameWFSubs,
            ih d (q ++ [d.name]) (hss d (List.mem_cons_self d ds)),
            ih2 (fun e he => hss e (List.mem_cons_of_mem d he))]
      rw [hrec subs hsz]

theorem lookupFile_mem : ∀ (files : List (List Char × List Nat)) (x : List Char)
    (dta : List Nat), lookupFile files x = some dta → (x, dta) ∈ files := by
  intro files
  induction files with
  | nil => intro x dta h; simp [lookupFile] at h
  | cons e es ih =>
    intro x dta h
    rw [lookupFile] at h
    by_cases hx : e.1 = x
    · rw [if_pos hx] at h
      cases h
      rw [← hx]
      exact List.mem_cons_self e es
    · rw [if_neg hx] at h
      exact List.mem_cons_of_mem e (ih x dta h)

theorem findSub_mem : ∀ (subs : List FsTree) (x : List Char) (d : FsTree),
    findSub subs x = some d → d ∈ subs := by
  intro subs
  induction subs with
  | nil => intro x d h; simp [findSub] at h
  | cons d0 ds ih =>
    intro x d h
    rw [findSub] at h
    by_cases h0 : d0.name = x
    · rw [if_pos h0] at h
      cases h
      exact List.mem_cons_self _ _
    · rw [if_neg h0] at h
      exact List.mem_cons_of_mem d0 (ih x d h)

theorem contentsGuardedSubs_mem (K : List (List Char)) (script : List (List Char)) :
    ∀ (subs : List FsTree) (q : List (List Char)) (d : FsTree),
      contentsGuardedSubs K script q subs = true → d ∈ subs →
      contentsGuarded K script (q ++ [d.name]) d = true := by
  intro subs
  induction subs with
  | nil => intro q d _ hd; simp at hd
  | cons e es ih =>
    intro q d hg hd
    rw [contentsGuardedSubs, Bool.and_eq_true] at hg
    rcases List.mem_cons.mp hd with h | h
    · subst h; exact hg.1
    · exact ih q d hg.2 h

/-- The content guard supplies the dollar invariant for the file at any
selected path. -/
theorem contentsGuarded_fileAt (K : List (List Char)) (script : List (List Char)) :
    ∀ (p q : List (List Char)) (t : FsTree) (dta : List Nat) (txt : List Char),
      contentsGuarded K script q t = true →
      fileAt p t = some dta → selectFile (q ++ p) script = true →
      decodeUtf8 dta = some txt → dollarGuarded K (translateNL txt) = true := by
  intro p
  induction p with
  | nil => intro q t dta txt _ hf _ _; simp [fileAt] at hf
  | cons x rest ih =>
    intro q t dta txt hg hf hsel hdec
    cases rest with
    | nil =>
      cases t with
      | node nm subs files =>
        rw [contentsGuarded, Bool.and_eq_true] at hg
        rw [fileAt, FsTree.files_node] at hf
        have hmem := lookupFile_mem files x dta hf
        have hall := List.all_eq_true.mp hg.1 _ hmem
        simp only at hall
        rw [if_pos hsel] at hall
        rw [hdec] at hall
        exact hall
    | cons y rest2 =>
      cases t with
      | node nm subs files =>
        rw [contentsGuarded, Bool.and_eq_true] at hg
        rw [fileAt, FsTree.subs_node] at hf
        cases hfind : findSub subs x with
        | none => rw [hfind] at hf; exact absurd hf (by simp)
        | some d =>
          rw [hfind] at hf
          have hdn : d.name = x := findSub_name subs x d hfind
          have hdm : d ∈ subs := findSub_mem subs x d hfind
          have hgd := contentsGuardedSubs_mem K script subs q d hg.2 hdm
          refine ih (q ++ [x]) d dta txt (by rw [← hdn]; exact hgd) hf ?_ hdec
          rw [List.append_assoc]
          exact hsel

theorem hasMarker_false_iff (n : List Char) :
    hasMarker n = false ↔ ¬ ((strL ("$\x7b")) <:+: n) := by
  simp [hasMarker]

/-- A string whose dollars all open complete marker-shaped tokens, but that
contains no marker, contains no dollar at all. -/
theorem noDollar_of_guarded_noMarker (K : List (List Char))
    (hK : ∀ k ∈ K, ∃ r, k = '$' :: '\x7b' :: r) :
    ∀ n : List Char, dollarGuarded K n = true → hasMarker n = false → '$' ∉ n := by
  intro n
  induction n with
  | nil => intro _ _; simp
  | cons c t ih =>
    intro hg hm
    have hmt : hasMarker t = false := by
      rw [hasMarker_false_iff] at hm ⊢
      intro hinf
      exact hm (hinf.trans (List.suffix_cons c t).isInfix)
    rw [dollarGuarded, Bool.and_eq_true] at hg
    intro hmem
    rcases List.mem_cons.mp hmem with h | h
    · subst h
      rcases Bool.or_eq_true _ _ |>.mp hg.1 with h1 | h1
      · simp at h1
      · obtain ⟨k, hk, hkp⟩ := List.any_eq_true.mp h1
        obtain ⟨r, hr⟩ := hK k hk
        have hpre : (strL ("$\x7b")) <+: ('$' :: t) := by
          have h2 : (strL ("$\x7b")) <+: k := by
            rw [hr]
            exact ⟨r, rfl⟩
          exact h2.trans (isPrefixOf_iff_pre.mp hkp)
        rw [hasMarker_false_iff] at hm
        exact hm hpre.isInfix
    · exact ih hg.2 hmt h

/-- The effective new name of any guarded name is dollar-free: a marked
name has all its tokens substituted away and an unmarked guarded name had
no dollar to begin with. -/
theorem effNew_noDollar (rs : List (List Char × List Char))
    (hK : ∀ kv ∈ rs, DollarKey kv.1 ∧ '$' ∉ kv.2)
    (hM : ∀ kv ∈ rs, ∃ r, kv.1 = '$' :: '\x7b' :: r)
    (n : List Char) (hg : dollarGuarded (rs.map (fun kv => kv.1)) n = true) :
    '$' ∉ effNew rs n := by
  unfold effNew
  by_cases hm : hasMarker n = true
  · rw [if_pos hm]
    exact noDollar_applyReplacements rs hK n hg
  · rw [if_neg hm]
    refine noDollar_of_guarded_noMarker _ ?_ n hg (by simpa using hm)
    intro k hk
    obtain ⟨kv, hkv, hEq⟩ := List.mem_map.mp hk
    subst hEq
    exact hM kv hkv

/-- Every name below the renamed tree is the effective new name of a name
below the original tree. -/
theorem namesBelow_innerRename (rs : List (List Char × List Char)) :
    ∀ (N : Nat) (t : FsTree), sizeOf t ≤ N →
      ∀ n ∈ namesBelow (innerRename rs t), ∃ n0 ∈ namesBelow t, n = effNew rs n0 := by
  intro N
  induction N with
  | zero =>
    intro t hsize
    cases t with
    | node nm subs files =>
      rw [FsTree.node.sizeOf_spec] at hsize
      omega
  | succ N ih =>
    intro t hsize
    cases t with
    | node nm subs files =>
      have hsz : ∀ d ∈ subs, sizeOf d ≤ N := by
        intro d hd
        have h1 : sizeOf d < sizeOf subs := List.sizeOf_lt_of_mem hd
        rw [FsTree.node.sizeOf_spec] at hsize
        omega
      intro n hn
      show ∃ n0 ∈ files.map Prod.fst ++ subs.map FsTree.name ++ namesBelowSubs subs,
        n = effNew rs n0
      have hn' : n ∈ (files.map (fun e => (effNew rs e.1, e.2))).map Prod.fst
          ++ (innerRenameSubs rs subs).map FsTree.name
          ++ namesBelowSubs (innerRenameSubs rs subs) := hn
      rcases List.mem_append.mp hn' with h12 | h3
      · rcases List.mem_append.mp h12 with h1 | h2
        · obtain ⟨e', he', hEq⟩ := List.mem_map.mp h1
          obtain ⟨e, he, hEq2⟩ := List.mem_map.mp he'
          refine ⟨e.1, ?_, ?_⟩
          · exact List.mem_append.mpr (Or.inl (List.mem_append.mpr
              (Or.inl (List.mem_map_of_mem Prod.fst he))))
          · rw [← hEq, ← hEq2]
        · rw [innerRenameSubs_eq] at h2
          obtain ⟨d', hd', hEq⟩ := List.mem_map.mp h2
          obtain ⟨d, hd, hEq2⟩ := List.mem_map.mp hd'
          obtain ⟨d0, hd0, hEq3⟩ := List.mem_map.mp hd
          refine ⟨d0.name, ?_, ?_⟩
          · exact List.mem_append.mpr (Or.inl (List.mem_append.mpr
              (Or.inr (List.mem_map_of_mem FsTree.name hd0))))
          · rw [← hEq, ← hEq2, ← hEq3]
            simp only [renD, withName_name, innerRename_name]
      · have hsubsN : ∀ (ss : List FsTree), (∀ d ∈ ss, sizeOf d ≤ N) →
            ∀ m ∈ namesBelowSubs (innerRenameSubs rs ss),
              ∃ n0 ∈ namesBelowSubs ss, m = effNew rs n0 := by
          intro ss
          induction ss with
          | nil =>
            intro _ m hm
            simp [innerRenameSubs, namesBelowSubs] at hm
          | cons d ds ih2 =>
            intro hss m hm
            rw [innerRenameSubs, namesBelowSubs, namesBelow_withName] at hm
            rcases List.mem_append.mp hm with hm1 | hm2
            · obtain ⟨n0, hn0, hEq⟩ := ih d (hss d (List.mem_cons_self d ds)) m hm1
              exact ⟨n0, List.mem_append.mpr (Or.inl hn0), hEq⟩
            · obtain ⟨n0, hn0, hEq⟩ := ih2 (fun e he => hss e (List.mem_cons_of_mem d he)) m hm2
              exact ⟨n0, List.mem_append.mpr (Or.inr hn0), hEq⟩
        obtain ⟨n0, hn0, hEq⟩ := hsubsN subs hsz n h3
        exact ⟨n0, List.mem_append.mpr (Or.inr hn0), hEq⟩

/-- The hyphen-to-underscore derivation introduces no character other than
the underscore. -/
theorem importName_avoids {c : Char} (hc : c ≠ '_') {name : List Char}
    (h : c ∉ name) : c ∉ importName name := by
  rw [importName_eq_map]
  intro hm
  obtain ⟨x, hx, hfx⟩ := List.mem_map.mp hm
  by_cases hd : x = '-'
  · rw [if_pos hd] at hfx
    exact hc hfx.symm
  · rw [if_neg hd] at hfx
    subst hfx
    exact h hx

/-- No value of the dictionary contains the character c when none of the
five argument strings does, for any c other than the underscore. -/
theorem buildReplacements_values_avoid {c : Char} (hc : c ≠ '_')
    {name author email description github year : List Char}
    (h1 : c ∉ name) (h2 : c ∉ author) (h3 : c ∉ email) (h4 : c ∉ description)
    (h5 : c ∉ github) (h6 : c ∉ year) :
    ∀ kv ∈ buildReplacements name author email description github year, c ∉ kv.2 := by
  intro kv hm
  simp only [buildReplacements, List.mem_cons, List.not_mem_nil, or_false] at hm
  rcases hm with h | h | h | h | h | h | h | h <;> subst h
  · exact h1
  · exact importName_avoids hc h1
  · exact importName_avoids hc h1
  · exact h2
  · exact h3
  · exact h4
  · exact h5
  · exact h6

/-- Every key of the dictionary opens with the literal marker. -/
theorem markerKey_buildReplacements (name author email description github year : List Char) :
    ∀ kv ∈ buildReplacements name author email description github year,
      ∃ r, kv.1 = '$' :: '\x7b' :: r := by
  intro kv hm
  simp only [buildReplacements, List.mem_cons, List.not_mem_nil, or_false] at hm
  rcases hm with h | h | h | h | h | h | h | h <;> subst h
  · exact ⟨(strL ("package_name\x7d")), show keyPackageName = _ by decide⟩
  · exact ⟨(strL ("import_name\x7d")), show keyImportName = _ by decide⟩
  · exact ⟨(strL ("package_title\x7d")), show keyPackageTitle = _ by decide⟩
  · exact ⟨(strL ("author\x7d")), show keyAuthor = _ by decide⟩
  · exact ⟨(strL ("email\x7d")), show keyEmail = _ by decide⟩
  · exact ⟨(strL ("description\x7d")), show keyDescription = _ by decide⟩
  · exact ⟨(strL ("github_username\x7d")), show keyGithubUsername = _ by decide⟩
  · exact ⟨(strL ("year\x7d")), show keyYear = _ by decide⟩

theorem keys_buildReplacements (name author email description github year : List Char) :
    (buildReplacements name author email description github year).map (fun kv => kv.1)
      = [keyPackageName, keyImportName, keyPackageTitle, keyAuthor, keyEmail,
         keyDescription, keyGithubUsername, keyYear] := rfl

theorem lookup_overwrite_dst (src dst : List Char) (data : List Nat) (hne : src ≠ dst) :
    ∀ files : List (List Char × List Nat), lookupFile files src = some data →
      lookupFile ((files.filter (fun e => ¬ e.1 = dst)).map
        (fun e => if e.1 = src then (dst, e.2) else e)) dst = some data := by
  intro files
  induction files with
  | nil => intro h; simp [lookupFile] at h
  | cons e es ih =>
    intro h
    rw [lookupFile] at h
    by_cases hx : e.1 = src
    · rw [if_pos hx] at h
      cases h
      rw [List.filter_cons, if_pos (by simpa using hx ▸ hne), List.map_cons, if_pos hx,
        lookupFile, if_pos rfl]
    · rw [if_neg hx] at h
      by_cases hd : e.1 = dst
      · rw [List.filter_cons, if_neg (by simpa using hd)]
        exact ih h
      · rw [List.filter_cons, if_pos (by simpa using hd), List.map_cons, if_neg hx,
          lookupFile, if_neg hd]
        exact ih h

theorem lookup_overwrite_src_none (src dst : List Char) (hne : src ≠ dst) :
    ∀ files : List (List Char × List Nat),
      lookupFile ((files.filter (fun e => ¬ e.1 = dst)).map
        (fun e => if e.1 = src then (dst, e.2) else e)) src = none := by
  intro files
  refine lookupFile_eq_none _ src ?_
  intro hmem
  obtain ⟨e', he', hEq⟩ := List.mem_map.mp hmem
  obtain ⟨e, he, hEq2⟩ := List.mem_map.mp he'
  by_cases hx : e.1 = src
  · rw [if_pos hx] at hEq2
    rw [← hEq2] at hEq
    exact hne hEq.symm
  · rw [if_neg hx] at hEq2
    rw [← hEq2] at hEq
    exact hx hEq

theorem filter_dst_length (dst : List Char) :
    ∀ files : List (List Char × List Nat), (files.map Prod.fst).Nodup →
      dst ∈ files.map Prod.fst →
      (files.filter (fun e => ¬ e.1 = dst)).length + 1 = files.length := by
  intro files
  induction files with
  | nil => intro _ hd; simp at hd
  | cons e es ih =>
    intro hnd hd
    rw [List.map_cons, List.nodup_cons] at hnd
    by_cases hx : e.1 = dst
    · rw [List.filter_cons, if_neg (by simpa using hx)]
      rw [entries_filter_id dst es (by
        intro x hxm hxd
        exact hnd.1 (by rw [← hx] at hxd; exact hxd ▸ List.mem_map_of_mem Prod.fst hxm)),
        List.length_cons]
    · rw [List.filter_cons, if_pos (by simpa using hx), List.length_cons, List.length_cons]
      have hd2 : dst ∈ es.map Prod.fst := by
        rcases List.mem_cons.mp hd with h | h
        · exact absurd h.symm hx
        · exact h
      rw [ih hnd.2 hd2]

/-- C7: when no explicit GitHub handle is supplied, an email containing an
at sign yields the part before the first at sign as handle, and an email
without one yields the invoking account's OS username. -/
theorem C7_github_derivation :
    (∀ email osUser : List Char, '@' ∈ email →
      resolveGithub none email osUser = email.takeWhile (fun c => ¬ (c = '@')))
    ∧ (∀ email osUser : List Char, '@' ∉ email →
      resolveGithub none email osUser = osUser) := by
  constructor
  · intro email osUser h
    show (if '@' ∈ email then (pySplitCh '@' email).headD [] else osUser) = _
    rw [if_pos h, pySplitCh_headD]
  · intro email osUser h
    show (if '@' ∈ email then (pySplitCh '@' email).headD [] else osUser) = _
    rw [if_neg h]

/-- Witness for C7 at the concrete inputs of the spec example. -/
theorem C7_github_derivation_witness :
    resolveGithub none (strL ("a@b.com")) (strL ("zed"))
        = (strL ("a@b.com")).takeWhile (fun c => ¬ (c = '@'))
    ∧ (strL ("a@b.com")).takeWhile (fun c => ¬ (c = '@')) = strL ("a")
    ∧ resolveGithub none (strL ("nomail")) (strL ("zed")) = strL ("zed") :=
  ⟨C7_github_derivation.1 (strL ("a@b.com")) (strL ("zed")) (by decide),
   by decide,
   C7_github_derivation.2 (strL ("nomail")) (strL ("zed")) (by decide)⟩

/-- C9: the dictionary value for the package-title token coincides with the
value for the import-name token; both are the package name with every
hyphen replaced by an underscore, and no independent title is ever used. -/
theorem C9_title_equals_import (name author email description github year : List Char) :
    ((buildReplacements name author email description github year).lookup keyPackageTitle
        = some (name.map (fun c => if c = '-' then '_' else c)))
    ∧ ((buildReplacements name author email description github year).lookup keyImportName
        = some (name.map (fun c => if c = '-' then '_' else c))) := by
  have hmap := importName_eq_map name
  have e1 : (keyPackageTitle == keyPackageName) = false := by decide
  have e2 : (keyPackageTitle == keyImportName) = false := by decide
  have e3 : (keyImportName == keyPackageName) = false := by decide
  have e4 : (keyImportName == keyImportName) = true := by decide
  have e5 : (keyPackageTitle == keyPackageTitle) = true := by decide
  constructor
  · simp [buildReplacements, List.lookup, hmap, e1, e2, e5]
  · simp [buildReplacements, List.lookup, hmap, e3, e4]

/-- C2 counterexample: with the author value equal to the literal email
token, the content rewriter substitutes that inserted token in its later
pass, while the claim predicts it would stay verbatim. -/
theorem C2_counterexample :
    applyReplacements
        (buildReplacements (strL ("pkg")) (strL ("$\x7bemail\x7d")) (strL ("a@b.com"))
          (strL ("d")) (strL ("g")) (strL ("2026")))
        (strL ("$\x7bauthor\x7d"))
      = strL ("a@b.com")
    ∧ strL ("a@b.com") ≠ strL ("$\x7bemail\x7d") := by decide

/-- The substitution fold splits over a concatenation of the mapping. -/
theorem applyReplacements_append (l1 l2 : List (List Char × List Char)) (s : List Char) :
    applyReplacements (l1 ++ l2) s = applyReplacements l2 (applyReplacements l1 s) := by
  simp [applyReplacements, List.foldl_append]

/-- On a subject that is exactly the nonempty needle, one replace pass
yields exactly the value. -/
theorem replaceAll_self (k v : List Char) (hk : k ≠ []) : replaceAll k v k = v := by
  match k, hk with
  | c :: t, _ =>
    show replaceAllAux (c :: t) v (c :: t).length (c :: t) = v
    have hp : (c :: t).isPrefixOf (c :: t) = true :=
      isPrefixOf_iff_pre.mpr (List.prefix_refl _)
    rw [List.length_cons]
    simp only [replaceAllAux, hp, if_true, List.drop_length, replaceAllAux_nil,
      List.append_nil]

/-- C2 as amended: in the eight-pass fold each replacement value is
inserted by its own pass and re-scanned only by the passes strictly later
in the mapping order.  However the mapping is split around one entry
(k, v), the whole fold factors as the earlier passes, then the (k, v)
pass, then only the later passes, on every subject; neither k itself nor
any earlier key is among the later keys, so the inserted value is never
re-scanned for its own token or for an earlier token; and on a subject
that is exactly the token k, the whole fold returns the later passes
applied to v alone, which is v verbatim whenever no strictly later key
occurs in v — in particular when v is its own token or any earlier token.
Only a strictly later token inside v is substituted, as the
counterexample shows. -/
theorem C2_amended_no_rescan_earlier
    (name author email description github year : List Char)
    (rs pre post : List (List Char × List Char)) (k v : List Char)
    (hrs : rs = buildReplacements name author email description github year)
    (hsplit : rs = pre ++ (k, v) :: post) :
    (∀ s, applyReplacements rs s
        = applyReplacements post (replaceAll k v (applyReplacements pre s)))
    ∧ k ∉ post.map (fun kv => kv.1)
    ∧ (∀ p ∈ pre, p.1 ∉ post.map (fun kv => kv.1))
    ∧ applyReplacements rs k = applyReplacements post v
    ∧ ((∀ p ∈ post, ¬ p.1 <:+: v) → applyReplacements rs k = v) := by
  have hkeys : pre.map (fun kv => kv.1) ++ k :: post.map (fun kv => kv.1)
      = [keyPackageName, keyImportName, keyPackageTitle, keyAuthor, keyEmail,
         keyDescription, keyGithubUsername, keyYear] := by
    have h1 := keys_buildReplacements name author email description github year
    rw [← hrs, hsplit] at h1
    simpa using h1
  have hnonnil : ∀ x ∈ [keyPackageName, keyImportName, keyPackageTitle, keyAuthor,
      keyEmail, keyDescription, keyGithubUsername, keyYear], x ≠ ([] : List Char) := by
    decide
  have hnoinf : ∀ a ∈ [keyPackageName, keyImportName, keyPackageTitle, keyAuthor,
      keyEmail, keyDescription, keyGithubUsername, keyYear],
      ∀ b ∈ [keyPackageName, keyImportName, keyPackageTitle, keyAuthor,
      keyEmail, keyDescription, keyGithubUsername, keyYear], a ≠ b → ¬ a <:+: b := by
    decide
  have hnd : (pre.map (fun kv => kv.1) ++ k :: post.map (fun kv => kv.1)).Nodup := by
    rw [hkeys]; decide
  have hdisj : List.Disjoint (pre.map (fun kv => kv.1)) (k :: post.map (fun kv => kv.1)) :=
    List.disjoint_of_nodup_append hnd
  have hmemk : k ∈ [keyPackageName, keyImportName, keyPackageTitle, keyAuthor, keyEmail,
      keyDescription, keyGithubUsername, keyYear] := by
    rw [← hkeys]; exact List.mem_append_right _ (List.mem_cons_self _ _)
  have hknil : k ≠ [] := hnonnil k hmemk
  have hpreK : ∀ p ∈ pre, ¬ p.1 <:+: k := by
    intro p hp
    have hp1 : p.1 ∈ pre.map (fun kv => kv.1) := List.mem_map_of_mem _ hp
    have hpk : p.1 ∈ [keyPackageName, keyImportName, keyPackageTitle, keyAuthor, keyEmail,
        keyDescription, keyGithubUsername, keyYear] := by
      rw [← hkeys]; exact List.mem_append_left _ hp1
    have hne : p.1 ≠ k := by
      intro he
      exact hdisj hp1 (by rw [he]; exact List.mem_cons_self _ _)
    exact hnoinf _ hpk _ hmemk hne
  have hfact : ∀ s, applyReplacements rs s
      = applyReplacements post (replaceAll k v (applyReplacements pre s)) := by
    intro s
    rw [hsplit, applyReplacements_append, applyReplacements_cons]
  have hpre_id : applyReplacements pre k = k := applyReplacements_of_no_key pre k hpreK
  have hmain : applyReplacements rs k = applyReplacements post v := by
    rw [hfact k, hpre_id, replaceAll_self k v hknil]
  refine ⟨hfact, ?_, ?_, hmain, ?_⟩
  · have h2 : (k :: post.map (fun kv => kv.1)).Nodup := hnd.of_append_right
    exact (List.nodup_cons.mp h2).1
  · intro p hp hmem
    exact hdisj (List.mem_map_of_mem _ hp) (List.mem_cons_of_mem _ hmem)
  · intro hv
    rw [hmain]
    exact applyReplacements_of_no_key post v hv

/-- Witness for C2 as amended, at the author slot with the author value
equal to its own token: the value survives the whole fold verbatim. -/
theorem C2_amended_no_rescan_earlier_witness :
    applyReplacements
        (buildReplacements (strL ("pkg")) (strL ("$\x7bauthor\x7d")) (strL ("e@x.io"))
          (strL ("d")) (strL ("g")) (strL ("2026")))
        keyAuthor
      = strL ("$\x7bauthor\x7d") :=
  (C2_amended_no_rescan_earlier (strL ("pkg")) (strL ("$\x7bauthor\x7d")) (strL ("e@x.io"))
      (strL ("d")) (strL ("g")) (strL ("2026")) _
      [ (keyPackageName, strL ("pkg")), (keyImportName, importName (strL ("pkg"))),
        (keyPackageTitle, importName (strL ("pkg"))) ]
      [ (keyEmail, strL ("e@x.io")), (keyDescription, strL ("d")),
        (keyGithubUsername, strL ("g")), (keyYear, strL ("2026")) ]
      keyAuthor (strL ("$\x7bauthor\x7d")) rfl rfl).2.2.2.2 (by decide)

/-- C5 counterexample: a first full substitution pass can itself assemble a
token out of adjacent text, which a second pass then substitutes, so a
second run of replace_in_file on an already substituted file is not always
a no-op. -/
theorem C5_counterexample :
    (replaceInFile (buildReplacements (strL ("pkg")) (strL ("a")) (strL ("e@x.io")) (strL ("d")) (strL ("g")) (strL ("2026")))
        ((replaceInFile (buildReplacements (strL ("pkg")) (strL ("a")) (strL ("e@x.io")) (strL ("d")) (strL ("g")) (strL ("2026"))) (encodeUtf8 (strL ("$\x7b$\x7bauthor\x7duthor\x7d")))).1)).1
      ≠ (replaceInFile (buildReplacements (strL ("pkg")) (strL ("a")) (strL ("e@x.io")) (strL ("d")) (strL ("g")) (strL ("2026"))) (encodeUtf8 (strL ("$\x7b$\x7bauthor\x7duthor\x7d")))).1 := by decide

/-- C5 as amended: re-running the content substitution is a no-op for a
file whose decoded, newline-translated text has every dollar opening a
complete supported token, provided no supplied argument contains a dollar
sign or a carriage return; under these conditions the first pass removes
every token and the second pass finds nothing to substitute or translate. -/
theorem C5_amended_idempotent (name author email description github year : List Char)
    (rs : List (List Char × List Char))
    (hrs : rs = buildReplacements name author email description github year)
    (h1 : '$' ∉ name) (h2 : '$' ∉ author) (h3 : '$' ∉ email) (h4 : '$' ∉ description)
    (h5 : '$' ∉ github) (h6 : '$' ∉ year)
    (c1 : '\r' ∉ name) (c2 : '\r' ∉ author) (c3 : '\r' ∉ email) (c4 : '\r' ∉ description)
    (c5 : '\r' ∉ github) (c6 : '\r' ∉ year)
    (b : List Nat) (txt : List Char) (hdec : decodeUtf8 b = some txt)
    (hg : dollarGuarded (rs.map (fun kv => kv.1)) (translateNL txt) = true) :
    replaceInFile rs ((replaceInFile rs b).1)
      = ((replaceInFile rs b).1, FileNotice.updated) := by
  have hfirst : replaceInFile rs b
      = (encodeUtf8 (applyReplacements rs (translateNL txt)), FileNotice.updated) := by
    unfold replaceInFile
    rw [hdec]
  have hKgood : ∀ kv ∈ rs, DollarKey kv.1 ∧ '$' ∉ kv.2 := by
    intro kv hkv
    subst hrs
    exact ⟨dollarKey_buildReplacements name author email description github year kv hkv,
      noDollar_buildReplacements_values h1 h2 h3 h4 h5 h6 kv hkv⟩
  have hx : '$' ∉ applyReplacements rs (translateNL txt) :=
    noDollar_applyReplacements rs hKgood (translateNL txt) hg
  have hcr : '\r' ∉ applyReplacements rs (translateNL txt) := by
    intro hmem
    rcases mem_of_mem_applyReplacements rs (translateNL txt) hmem with hm | ⟨kv, hkv, hm⟩
    · exact no_cr_translateNL txt hm
    · subst hrs
      exact buildReplacements_values_avoid (by decide) c1 c2 c3 c4 c5 c6 kv hkv hm
  have hnokey : ∀ kv ∈ rs, ¬ kv.1 <:+: applyReplacements rs (translateNL txt) := by
    intro kv hkv
    exact not_infix_of_noDollar (hKgood kv hkv).1 hx
  rw [hfirst]
  show replaceInFile rs (encodeUtf8 (applyReplacements rs (translateNL txt))) = _
  unfold replaceInFile
  rw [decodeUtf8_encodeUtf8]
  show (encodeUtf8 (applyReplacements rs
      (translateNL (applyReplacements rs (translateNL txt)))), FileNotice.updated) = _
  rw [translateNL_of_no_cr (applyReplacements rs (translateNL txt)).length _ (Nat.le_refl _) hcr]
  rw [applyReplacements_of_no_key rs _ hnokey]

/-- Witness for C5 as amended, on a concrete file containing one token. -/
theorem C5_amended_idempotent_witness :
    replaceInFile
        (buildReplacements (strL ("pkg")) (strL ("Ann")) (strL ("a@b.io")) (strL ("demo"))
          (strL ("ann")) (strL ("2026")))
        ((replaceInFile
          (buildReplacements (strL ("pkg")) (strL ("Ann")) (strL ("a@b.io")) (strL ("demo"))
            (strL ("ann")) (strL ("2026")))
          (encodeUtf8 (strL ("hello $\x7bpackage_name\x7d")))).1)
      = ((replaceInFile
          (buildReplacements (strL ("pkg")) (strL ("Ann")) (strL ("a@b.io")) (strL ("demo"))
            (strL ("ann")) (strL ("2026")))
          (encodeUtf8 (strL ("hello $\x7bpackage_name\x7d")))).1, FileNotice.updated) :=
  C5_amended_idempotent (strL ("pkg")) (strL ("Ann")) (strL ("a@b.io")) (strL ("demo"))
    (strL ("ann")) (strL ("2026")) _ rfl
    (by decide) (by decide) (by decide) (by decide) (by decide) (by decide)
    (by decide) (by decide) (by decide) (by decide) (by decide) (by decide)
    (encodeUtf8 (strL ("hello $\x7bpackage_name\x7d"))) (strL ("hello $\x7bpackage_name\x7d"))
    (by decide) (by decide)

/-- C3: on a collision-free tree the bottom-up rename stage succeeds as a
whole, every single move acting on a directory that still exists when it
runs (a failed navigation or missing source would make the run fail), and
the final tree carries the fully substituted name at every depth. -/
theorem C3_bottom_up_rename (rs : List (List Char × List Char)) (t : FsTree)
    (hwf : renameWF rs t = true) :
    execOps (walkOps rs t) t = some (innerRename rs t) :=
  execWalkOps rs t hwf

/-- Witness for C3 on the nested tree of the spec example, with a
placeholder at three depths. -/
theorem C3_bottom_up_rename_witness :
    execOps
        (walkOps
          (buildReplacements (strL ("pkg")) (strL ("a")) (strL ("e@x.io")) (strL ("d"))
            (strL ("g")) (strL ("2026")))
          (FsTree.node (strL ("root"))
            [FsTree.node (strL ("outer-$\x7bpackage_name\x7d"))
              [FsTree.node (strL ("inner-$\x7bpackage_name\x7d")) []
                [((strL ("file-$\x7bpackage_name\x7d")), [65])]] []] []))
        (FsTree.node (strL ("root"))
          [FsTree.node (strL ("outer-$\x7bpackage_name\x7d"))
            [FsTree.node (strL ("inner-$\x7bpackage_name\x7d")) []
              [((strL ("file-$\x7bpackage_name\x7d")), [65])]] []] [])
      = some (innerRename
          (buildReplacements (strL ("pkg")) (strL ("a")) (strL ("e@x.io")) (strL ("d"))
            (strL ("g")) (strL ("2026")))
          (FsTree.node (strL ("root"))
            [FsTree.node (strL ("outer-$\x7bpackage_name\x7d"))
              [FsTree.node (strL ("inner-$\x7bpackage_name\x7d")) []
                [((strL ("file-$\x7bpackage_name\x7d")), [65])]] []] [])) :=
  C3_bottom_up_rename _ _ (by decide)

/-- C4: rename collision handling is asymmetric.  A directory move whose
destination already exists is silently skipped, returning the tree
unchanged with no error; a file move has no existence guard, so with an
existing destination file the move proceeds and overwrites it, losing one
entry. -/
theorem C4_collision_asymmetry :
    (∀ (nd : FsTree) (src dst : List Char),
      ((lookupFile nd.files dst).isSome = true ∨ (findSub nd.subs dst).isSome = true) →
      renameDirInNode nd src dst = some nd)
    ∧ (∀ (nd : FsTree) (src dst : List Char) (data : List Nat),
      lookupFile nd.files src = some data →
      findSub nd.subs dst = none →
      dst ∈ nd.files.map Prod.fst →
      (nd.files.map Prod.fst).Nodup →
      src ≠ dst →
      ∃ nd', renameFileInNode nd src dst = some nd'
        ∧ lookupFile nd'.files dst = some data
        ∧ lookupFile nd'.files src = none
        ∧ nd'.files.length + 1 = nd.files.length) := by
  constructor
  · intro nd src dst h
    unfold renameDirInNode
    rw [if_pos h]
  · intro nd src dst data hsrc hdst hdmem hnd hne
    unfold renameFileInNode
    rw [hsrc, hdst]
    refine ⟨_, rfl, ?_, ?_, ?_⟩
    · rw [FsTree.files_node]
      exact lookup_overwrite_dst src dst data hne nd.files hsrc
    · rw [FsTree.files_node]
      exact lookup_overwrite_src_none src dst hne nd.files
    · rw [FsTree.files_node, List.length_map]
      exact filter_dst_length dst nd.files hnd hdmem

/-- Witness for C4: a directory rename into an existing name is skipped on
a concrete node, and a file rename onto an existing file overwrites it. -/
theorem C4_collision_asymmetry_witness :
    (renameDirInNode
        (FsTree.node (strL ("root"))
          [FsTree.node (strL ("$\x7bpackage_name\x7d")) [] [], FsTree.node (strL ("pkg")) [] []]
          [])
        (strL ("$\x7bpackage_name\x7d")) (strL ("pkg"))
      = some (FsTree.node (strL ("root"))
          [FsTree.node (strL ("$\x7bpackage_name\x7d")) [] [], FsTree.node (strL ("pkg")) [] []]
          []))
    ∧ (∃ nd', renameFileInNode
        (FsTree.node (strL ("root")) [] [((strL ("$\x7bpackage_name\x7d")), [65]), ((strL ("pkg")), [66])])
        (strL ("$\x7bpackage_name\x7d")) (strL ("pkg"))
      = some nd'
        ∧ lookupFile nd'.files (strL ("pkg")) = some [65]
        ∧ lookupFile nd'.files (strL ("$\x7bpackage_name\x7d")) = none
        ∧ nd'.files.length + 1
          = (FsTree.node (strL ("root")) []
              [((strL ("$\x7bpackage_name\x7d")), [65]), ((strL ("pkg")), [66])]).files.length) :=
  ⟨C4_collision_asymmetry.1 _ _ _ (by decide),
   C4_collision_asymmetry.2 _ _ _ [65] (by decide) rfl (by decide) (by decide)
     (by decide)⟩

/-- C6: the content-rewrite stage's choice of files is fully characterized
by the hardcoded conditions of main: a file's bytes are rewritten exactly
when no component of its path is .git or .github and the path is not the
script's own, and are untouched otherwise; no gitignore-pattern decision
enters anywhere. -/
theorem C6_selection_hardcoded (rs : List (List Char × List Char))
    (script : List (List Char)) (t : FsTree) (p : List (List Char)) :
    fileAt p (contentPassAt rs script [] t)
      = (fileAt p t).map (fun dta =>
          if gitName ∉ p ∧ githubName ∉ p ∧ p ≠ script then (replaceInFile rs dta).1
          else dta) := by
  have h := fileAt_contentPass rs script p [] t
  rw [List.nil_append] at h
  rw [h]
  simp only [selectFile, decide_eq_true_eq]

/-- C8: a file whose bytes do not decode as UTF-8 is left byte-for-byte
unchanged and reported as skipped, and the walk keeps processing every
other file of the tree according to the selection rule, rather than
aborting. -/
theorem C8_binary_skip :
    (∀ (rs : List (List Char × List Char)) (b : List Nat),
      decodeUtf8 b = none → replaceInFile rs b = (b, FileNotice.skippedBinary))
    ∧ (∀ (rs : List (List Char × List Char)) (script : List (List Char))
        (t : FsTree) (p : List (List Char)) (dta : List Nat),
      fileAt p t = some dta →
      fileAt p (contentPassAt rs script [] t)
        = some (if selectFile p script = true then (replaceInFile rs dta).1 else dta)) := by
  constructor
  · intro rs b h
    unfold replaceInFile
    rw [h]
  · intro rs script t p dta hf
    have h := fileAt_contentPass rs script p [] t
    rw [List.nil_append] at h
    rw [h, hf, Option.map_some']

/-- Witness for C8: an invalid byte is skipped unchanged, and in a tree
holding that binary file beside a text file both files keep being
processed by the walk. -/
theorem C8_binary_skip_witness :
    (replaceInFile
        (buildReplacements (strL ("pkg")) (strL ("a")) (strL ("e@x.io")) (strL ("d"))
          (strL ("g")) (strL ("2026")))
        [255]
      = ([255], FileNotice.skippedBinary))
    ∧ (fileAt [strL ("note.txt")]
        (contentPassAt
          (buildReplacements (strL ("pkg")) (strL ("a")) (strL ("e@x.io")) (strL ("d"))
            (strL ("g")) (strL ("2026")))
          [strL ("init.py")] []
          (FsTree.node (strL ("root")) []
            [((strL ("blob.bin")), [255]), ((strL ("note.txt")), [104, 105])]))
      = some (if selectFile [strL ("note.txt")] [strL ("init.py")] = true then
          (replaceInFile
            (buildReplacements (strL ("pkg")) (strL ("a")) (strL ("e@x.io")) (strL ("d"))
              (strL ("g")) (strL ("2026")))
            [104, 105]).1
        else [104, 105])) :=
  ⟨C8_binary_skip.1 _ [255] (by decide),
   C8_binary_skip.2 _ [strL ("init.py")] _ [strL ("note.txt")] [104, 105] (by decide)⟩

/-- C10: the rename stage applies no exclusion for version-control
directories or for the script's own file: on a tree whose first
subdirectory is named .git, the run renames every marked file inside .git
with the same substitution as everywhere else. -/
theorem C10_no_exclusion_in_rename (rs : List (List Char × List Char))
    (rootn : List Char) (gsubs others : List FsTree)
    (gfiles rfiles : List (List Char × List Nat))
    (hwf : renameWF rs
      (FsTree.node rootn (FsTree.node gitName gsubs gfiles :: others) rfiles) = true) :
    execOps
        (walkOps rs (FsTree.node rootn (FsTree.node gitName gsubs gfiles :: others) rfiles))
        (FsTree.node rootn (FsTree.node gitName gsubs gfiles :: others) rfiles)
      = some (FsTree.node rootn
          (FsTree.node gitName (innerRenameSubs rs gsubs)
            (gfiles.map (fun e => (effNew rs e.1, e.2)))
            :: innerRenameSubs rs others)
          (rfiles.map (fun e => (effNew rs e.1, e.2)))) := by
  rw [execWalkOps rs _ hwf]
  rw [innerRename, innerRenameSubs]
  rw [innerRename]
  have hg : effNew rs gitName = gitName := by
    rw [effNew, if_neg (by decide)]
  rw [FsTree.name_node, hg]
  rfl

/-- Witness for C10 on a concrete tree with one marked file inside .git. -/
theorem C10_no_exclusion_in_rename_witness :
    execOps
        (walkOps (buildReplacements (strL ("pkg")) (strL ("a")) (strL ("e@x.io")) (strL ("d")) (strL ("g")) (strL ("2026")))
          (FsTree.node (strL ("root"))
            [FsTree.node gitName [] [((strL ("$\x7bpackage_name\x7d.txt")), [65])]] []))
        (FsTree.node (strL ("root"))
          [FsTree.node gitName [] [((strL ("$\x7bpackage_name\x7d.txt")), [65])]] [])
      = some (FsTree.node (strL ("root"))
          (FsTree.node gitName (innerRenameSubs (buildReplacements (strL ("pkg")) (strL ("a")) (strL ("e@x.io")) (strL ("d")) (strL ("g")) (strL ("2026"))) [])
              ([((strL ("$\x7bpackage_name\x7d.txt")), ([65] : List Nat))].map
                (fun e => (effNew (buildReplacements (strL ("pkg")) (strL ("a")) (strL ("e@x.io")) (strL ("d")) (strL ("g")) (strL ("2026"))) e.1, e.2)))
            :: innerRenameSubs (buildReplacements (strL ("pkg")) (strL ("a")) (strL ("e@x.io")) (strL ("d")) (strL ("g")) (strL ("2026"))) [])
          (([] : List (List Char × List Nat)).map
            (fun e => (effNew (buildReplacements (strL ("pkg")) (strL ("a")) (strL ("e@x.io")) (strL ("d")) (strL ("g")) (strL ("2026"))) e.1, e.2)))) :=
  C10_no_exclusion_in_rename (buildReplacements (strL ("pkg")) (strL ("a")) (strL ("e@x.io")) (strL ("d")) (strL ("g")) (strL ("2026"))) (strL ("root")) [] []
    [((strL ("$\x7bpackage_name\x7d.txt")), [65])] [] (by decide)

/-- C1 counterexample: processing a text file whose content reads, in
characters, dollar-brace-dollar-brace-author-brace-uthor-brace, with the
ordinary author value a, leaves the literal author token in the processed
file: the pass that removes the inner token splices the surrounding text
into a fresh token, and no later pass removes it. -/
theorem C1_counterexample :
    replaceInFile
        (buildReplacements (strL ("pkg")) (strL ("a")) (strL ("e@x.io")) (strL ("d"))
          (strL ("g")) (strL ("2026")))
        (encodeUtf8 (strL ("$\x7b$\x7bauthor\x7duthor\x7d")))
      = (encodeUtf8 (strL ("$\x7bauthor\x7d")), FileNotice.updated)
    ∧ keyAuthor <:+: strL ("$\x7bauthor\x7d") := by decide

/-- C1 as amended: in a run on a tree in which every dollar of every name
and of every selected decodable file's translated text opens a complete
supported token, with dollar-free argument values, and whose rename stage
meets no collision, the pipeline removes every token: the rename stage
succeeds and no supported token remains in any name anywhere in the final
tree nor in the rewritten content of any selected file. -/
theorem C1_amended_token_elimination
    (name author email description github year : List Char) (script : List (List Char))
    (rs : List (List Char × List Char))
    (hrs : rs = buildReplacements name author email description github year)
    (h1 : '$' ∉ name) (h2 : '$' ∉ author) (h3 : '$' ∉ email) (h4 : '$' ∉ description)
    (h5 : '$' ∉ github) (h6 : '$' ∉ year) (t : FsTree)
    (hwf : renameWF rs (contentPassAt rs script [] t) = true)
    (hnames : ∀ n ∈ namesBelow t, dollarGuarded (rs.map (fun kv => kv.1)) n = true)
    (hcont : contentsGuarded (rs.map (fun kv => kv.1)) script [] t = true) :
    ∃ t2, execOps (walkOps rs (contentPassAt rs script [] t)) (contentPassAt rs script [] t)
        = some t2
      ∧ (∀ n ∈ namesBelow t2, ∀ kv ∈ rs, ¬ kv.1 <:+: n)
      ∧ (∀ (p : List (List Char)) (dta : List Nat) (txt : List Char),
          fileAt p t = some dta → selectFile p script = true → decodeUtf8 dta = some txt →
          fileAt p (contentPassAt rs script [] t)
            = some (encodeUtf8 (applyReplacements rs (translateNL txt)))
          ∧ ∀ kv ∈ rs, ¬ kv.1 <:+: applyReplacements rs (translateNL txt)) := by
  have hKgood : ∀ kv ∈ rs, DollarKey kv.1 ∧ '$' ∉ kv.2 := by
    intro kv hkv
    rw [hrs] at hkv
    exact ⟨dollarKey_buildReplacements name author email description github year kv hkv,
      noDollar_buildReplacements_values h1 h2 h3 h4 h5 h6 kv hkv⟩
  have hM : ∀ kv ∈ rs, ∃ r, kv.1 = '$' :: '\x7b' :: r := by
    intro kv hkv
    rw [hrs] at hkv
    exact markerKey_buildReplacements name author email description github year kv hkv
  refine ⟨innerRename rs (contentPassAt rs script [] t), execWalkOps rs _ hwf, ?_, ?_⟩
  · intro n hn kv hkv
    obtain ⟨n0, hn0, hEq⟩ := namesBelow_innerRename rs
      (sizeOf (contentPassAt rs script [] t)) (contentPassAt rs script [] t)
      (Nat.le_refl _) n hn
    rw [namesBelow_contentPass rs script (sizeOf t) t [] (Nat.le_refl _)] at hn0
    have hnd : '$' ∉ n := by
      rw [hEq]
      exact effNew_noDollar rs hKgood hM n0 (hnames n0 hn0)
    exact not_infix_of_noDollar (hKgood kv hkv).1 hnd
  · intro p dta txt hf hsel hdec
    have hg : dollarGuarded (rs.map (fun kv => kv.1)) (translateNL txt) = true := by
      refine contentsGuarded_fileAt (rs.map (fun kv => kv.1)) script p [] t dta txt hcont hf
        ?_ hdec
      rw [List.nil_append]
      exact hsel
    have hrw : replaceInFile rs dta
        = (encodeUtf8 (applyReplacements rs (translateNL txt)), FileNotice.updated) := by
      unfold replaceInFile
      rw [hdec]
    constructor
    · have h := fileAt_contentPass rs script p [] t
      rw [List.nil_append] at h
      rw [h, hf, Option.map_some', if_pos hsel, hrw]
    · intro kv hkv
      refine not_infix_of_noDollar (hKgood kv hkv).1 ?_
      exact noDollar_applyReplacements rs hKgood (translateNL txt) hg

/-- Witness for C1 as amended: a run on a one-file tree whose name and
content each hold one token. -/
theorem C1_amended_token_elimination_witness :
    ∃ t2, execOps
        (walkOps
          (buildReplacements (strL ("pkg")) (strL ("a")) (strL ("e@x.io")) (strL ("d"))
            (strL ("g")) (strL ("2026")))
          (contentPassAt
            (buildReplacements (strL ("pkg")) (strL ("a")) (strL ("e@x.io")) (strL ("d"))
              (strL ("g")) (strL ("2026")))
            [strL ("init.py")] []
            (FsTree.node (strL ("root")) []
              [((strL ("$\x7bpackage_name\x7d.txt")),
                encodeUtf8 (strL ("hello $\x7bpackage_name\x7d")))])))
        (contentPassAt
          (buildReplacements (strL ("pkg")) (strL ("a")) (strL ("e@x.io")) (strL ("d"))
            (strL ("g")) (strL ("2026")))
          [strL ("init.py")] []
          (FsTree.node (strL ("root")) []
            [((strL ("$\x7bpackage_name\x7d.txt")),
              encodeUtf8 (strL ("hello $\x7bpackage_name\x7d")))]))
        = some t2
      ∧ (∀ n ∈ namesBelow t2,
          ∀ kv ∈ buildReplacements (strL ("pkg")) (strL ("a")) (strL ("e@x.io")) (strL ("d"))
            (strL ("g")) (strL ("2026")), ¬ kv.1 <:+: n)
      ∧ (∀ (p : List (List Char)) (dta : List Nat) (txt : List Char),
          fileAt p (FsTree.node (strL ("root")) []
              [((strL ("$\x7bpackage_name\x7d.txt")),
                encodeUtf8 (strL ("hello $\x7bpackage_name\x7d")))]) = some dta →
          selectFile p [strL ("init.py")] = true → decodeUtf8 dta = some txt →
          fileAt p (contentPassAt
              (buildReplacements (strL ("pkg")) (strL ("a")) (strL ("e@x.io")) (strL ("d"))
                (strL ("g")) (strL ("2026")))
              [strL ("init.py")] []
              (FsTree.node (strL ("root")) []
                [((strL ("$\x7bpackage_name\x7d.txt")),
                  encodeUtf8 (strL ("hello $\x7bpackage_name\x7d")))]))
            = some (encodeUtf8 (applyReplacements
                (buildReplacements (strL ("pkg")) (strL ("a")) (strL ("e@x.io")) (strL ("d"))
                  (strL ("g")) (strL ("2026"))) (translateNL txt)))
          ∧ ∀ kv ∈ buildReplacements (strL ("pkg")) (strL ("a")) (strL ("e@x.io")) (strL ("d"))
              (strL ("g")) (strL ("2026")),
              ¬ kv.1 <:+: applyReplacements
                (buildReplacements (strL ("pkg")) (strL ("a")) (strL ("e@x.io")) (strL ("d"))
                  (strL ("g")) (strL ("2026"))) (translateNL txt)) :=
  C1_amended_token_elimination (strL ("pkg")) (strL ("a")) (strL ("e@x.io")) (strL ("d"))
    (strL ("g")) (strL ("2026")) [strL ("init.py")] _ rfl
    (by decide) (by decide) (by decide) (by decide) (by decide) (by decide)
    (FsTree.node (strL ("root")) []
      [((strL ("$\x7bpackage_name\x7d.txt")),
        encodeUtf8 (strL ("hello $\x7bpackage_name\x7d")))])
    (by decide) (by decide) (by decide)

/-- C3 counterexample: a tree with the placeholder at three nesting depths,
outer-$\x7bpackage_name\x7d / inner-$\x7bpackage_name\x7d /
file-$\x7bpackage_name\x7d, beside a sibling directory that already bears
the substituted outer name.  The bottom-up stage succeeds and renames the
file and the inner directory, but the guarded outer move silently skips, so
the stage does not produce the fully renamed tree: the package-name token
survives in a directory name. -/
theorem C3_counterexample :
    (∃ d ∈ (FsTree.node (strL ("root"))
        [FsTree.node (strL ("outer-pkg")) [] [],
         FsTree.node (strL ("outer-$\x7bpackage_name\x7d"))
           [FsTree.node (strL ("inner-$\x7bpackage_name\x7d")) []
             [((strL ("file-$\x7bpackage_name\x7d")), [65])]] []] []).subs,
      hasMarker d.name = true
      ∧ ∃ e ∈ d.subs, hasMarker e.name = true
        ∧ ∃ fe ∈ e.files, hasMarker fe.1 = true)
    ∧ execOps
        (walkOps
          (buildReplacements (strL ("pkg")) (strL ("a")) (strL ("e@x.io")) (strL ("d"))
            (strL ("g")) (strL ("2026")))
          (FsTree.node (strL ("root"))
            [FsTree.node (strL ("outer-pkg")) [] [],
             FsTree.node (strL ("outer-$\x7bpackage_name\x7d"))
               [FsTree.node (strL ("inner-$\x7bpackage_name\x7d")) []
                 [((strL ("file-$\x7bpackage_name\x7d")), [65])]] []] []))
        (FsTree.node (strL ("root"))
          [FsTree.node (strL ("outer-pkg")) [] [],
           FsTree.node (strL ("outer-$\x7bpackage_name\x7d"))
             [FsTree.node (strL ("inner-$\x7bpackage_name\x7d")) []
               [((strL ("file-$\x7bpackage_name\x7d")), [65])]] []] [])
      = some (FsTree.node (strL ("root"))
          [FsTree.node (strL ("outer-pkg")) [] [],
           FsTree.node (strL ("outer-$\x7bpackage_name\x7d"))
             [FsTree.node (strL ("inner-pkg")) []
               [((strL ("file-pkg")), [65])]] []] [])
    ∧ (∃ n ∈ namesBelow (FsTree.node (strL ("root"))
          [FsTree.node (strL ("outer-pkg")) [] [],
           FsTree.node (strL ("outer-$\x7bpackage_name\x7d"))
             [FsTree.node (strL ("inner-pkg")) []
               [((strL ("file-pkg")), [65])]] []] []),
        keyPackageName <:+: n) :=
  ⟨by decide, rfl, by decide⟩

